import Mathlib

/- Formal model of the OPD token allocation engine
   (src/services/TokenAllocationEngine.js together with the data classes of
   src/models/index.js).

   Modelling conventions.

   * Slot times. The JS code keys slots by strings of the shape "HH:00" and
     converts between strings and hour numbers with parseInt/padStart. Every
     slot a doctor owns is created from an integer hour, and distinct hours
     give distinct key strings, so we model a slot time directly as the
     integer hour (Int).

   * Token identity and aliasing. JS slot occupant arrays, the waiting queue
     and the token registry all hold references to the same mutable Token
     object. We model the JS object heap as the list `heap` of every Token
     record ever created; a token is identified by its position in that list
     (the uuid generator of the source is an arbitrary collision free id
     supply, which positions model faithfully). Containers (slot occupant
     sequences, the waiting queue, the registry key set) hold these ids, so
     a field update through one container is seen through all of them,
     exactly as with JS references.

   * Exceptions. A returned `none` models an uncaught JS exception (for
     example the TypeError raised when `insertEmergencyToken` dereferences a
     doctor that is not in the doctor table). Results that the engine
     returns to the caller are `OpResult` values.

   * The stored field `availableCapacity` of Slot is modelled as a stored
     field, as in the source, not derived from the occupant list; keeping it
     consistent is exactly the content of the capacity invariant.

   * The replay loop of processWaitingQueue is a for..of loop over the live
     waitingQueue array, which in JS visits elements pushed onto the array
     while the loop runs. We model the loop with an explicit pending list
     that is extended by the ids pushed during each step, plus a fuel
     argument that makes the recursion structural; the fuel computed by
     `replayFuel` dominates the length of any actual run because every push
     during the pass carries a strictly smaller priority than the token
     whose placement caused it.

   * Fields of the source that no modelled operation reads (token creation
     timestamps, estimated times, doctor display data are kept only where
     the constructors store them) do not affect any behaviour proved here.
-/

namespace OPD

inductive TStatus where
  | allocated | confirmed | cancelled | completed | noShow
deriving DecidableEq

/-- Token record (class Token of src/models/index.js). The uuid drawn in the
constructor is modelled by the position of the record in the engine heap, so
no id field is stored here. -/
structure Token where
  patientId : String
  doctorId : String
  slotTime : Int
  source : String
  priority : Nat
  status : TStatus
deriving DecidableEq

/-- Slot record (class Slot of src/models/index.js). `tokens` holds the ids
of the occupying Token objects; `availableCapacity` is the stored counter
the source maintains next to the occupant array. -/
structure Slot where
  doctorId : String
  startTime : Int
  endTime : Int
  maxCapacity : Nat
  tokens : List Nat
  availableCapacity : Int
deriving DecidableEq

/-- Doctor record (class Doctor). Working hours are the two hour numbers
parsed from the strings of the source; `slots` is the slot table in its
insertion order (ascending hour, one entry per hour). -/
structure Doctor where
  id : String
  name : String
  specialization : String
  whStart : Int
  whEnd : Int
  slots : List Slot
deriving DecidableEq

/-- Engine state (class TokenAllocationEngine): the doctor table, the JS
heap of every Token object ever constructed, the key set of the token
registry `this.tokens` (a token is registered under its own id, so the map
is determined by its key set plus the heap), and the waiting queue. -/
structure EngineState where
  doctors : List Doctor
  heap : List Token
  registered : List Nat
  waitingQueue : List Nat
deriving DecidableEq

/-- Result object returned by the engine operations: the success flag, the
id of the token the result carries (if any), and the message string. -/
structure OpResult where
  success : Bool
  tokenId : Option Nat
  message : String
deriving DecidableEq

def emptyEngine : EngineState := ⟨[], [], [], []⟩

/-- Slot.addToken: push the token and decrement the stored capacity if any
capacity is left, returning the success flag of the source. -/
def Slot.addToken (s : Slot) (tid : Nat) : Slot × Bool :=
  if s.availableCapacity > 0 then
    ({ s with tokens := s.tokens ++ [tid], availableCapacity := s.availableCapacity - 1 }, true)
  else (s, false)

/-- Remove the first occurrence of an id from a list (Array.splice at the
first matching index in Slot.removeToken). -/
def removeFirst (tid : Nat) : List Nat → List Nat
  | [] => []
  | x :: xs => if x = tid then xs else x :: removeFirst tid xs

/-- Slot.removeToken: splice out the first occupant with the given id and
increment the stored capacity when one is found. -/
def Slot.removeToken (s : Slot) (tid : Nat) : Slot × Bool :=
  if tid ∈ s.tokens then
    ({ s with tokens := removeFirst tid s.tokens, availableCapacity := s.availableCapacity + 1 }, true)
  else (s, false)

def EngineState.findDoctor (e : EngineState) (did : String) : Option Doctor :=
  e.doctors.find? (fun d => d.id == did)

/-- Dereference a token id on the heap. -/
def EngineState.heapGet (e : EngineState) (tid : Nat) : Option Token :=
  e.heap.get? tid

/-- this.tokens.get(tokenId): the registry resolves an id only if it was
registered. -/
def EngineState.tokensGet (e : EngineState) (tid : Nat) : Option Token :=
  if tid ∈ e.registered then e.heapGet tid else none

def Doctor.findSlot (d : Doctor) (h : Int) : Option Slot :=
  d.slots.find? (fun s => s.startTime == h)

/-- Replace the first element satisfying the predicate (JS Map.get hands out
the stored object and mutation happens in place; lookups and updates both
resolve to the first matching entry). -/
def updateFirst (p : α → Bool) (f : α → α) : List α → List α
  | [] => []
  | x :: xs => if p x then f x :: xs else x :: updateFirst p f xs

def Doctor.updateSlot (d : Doctor) (h : Int) (f : Slot → Slot) : Doctor :=
  { d with slots := updateFirst (fun s => s.startTime == h) f d.slots }

def EngineState.updateDoctor (e : EngineState) (did : String) (f : Doctor → Doctor) : EngineState :=
  { e with doctors := updateFirst (fun d => d.id == did) f e.doctors }

/-- Write a slot value back into the slot table of its doctor. -/
def EngineState.setSlot (e : EngineState) (did : String) (h : Int) (s : Slot) : EngineState :=
  e.updateDoctor did (fun d => d.updateSlot h (fun _ => s))

/-- Update one token record on the heap through its id. -/
def modifyNth (f : Token → Token) : Nat → List Token → List Token
  | _, [] => []
  | 0, t :: ts => f t :: ts
  | n + 1, t :: ts => t :: modifyNth f n ts

def EngineState.setTok (e : EngineState) (tid : Nat) (f : Token → Token) : EngineState :=
  { e with heap := modifyNth f tid e.heap }

/-- The hours startHour, startHour+1, ..., endHour-1 walked by the loop of
initializeDoctorSlots. -/
def mkHours (startH endH : Int) : List Int :=
  (List.range (endH - startH).toNat).map (fun k => startH + (k : Int))

/-- initializeDoctorSlots: one Slot per whole working hour, fixed capacity
10, empty occupant list. -/
def initSlots (did : String) (startH endH : Int) : List Slot :=
  (mkHours startH endH).map (fun h => ⟨did, h, h + 1, 10, [], 10⟩)

/-- Map.set on the doctor table: replace the entry that already carries the
id, else append. -/
def setDoctorAssoc : List Doctor → Doctor → List Doctor
  | [], d => [d]
  | x :: xs, d => if x.id == d.id then d :: xs else x :: setDoctorAssoc xs d

/-- addDoctor: store the doctor and materialize its slot table from the
working hours. -/
def EngineState.addDoctor (e : EngineState) (did name spec : String) (startH endH : Int) : EngineState :=
  { e with doctors := setDoctorAssoc e.doctors ⟨did, name, spec, startH, endH, initSlots did startH endH⟩ }

/-- getSourceConfig: the fixed source table, falling back to the walkin
priority for an unrecognized tag. -/
def sourcePriority (source : String) : Nat :=
  if source == "emergency" then 10
  else if source == "priority" then 8
  else if source == "followup" then 6
  else if source == "online" then 4
  else 2

/-- The scan of tryBumpLowerPriorityToken: walk the occupant ids tracking
the lowest priority seen so far (seeded with the incoming priority) and the
id that carries it; only a strictly smaller priority updates the pair, so
the first occupant attaining the minimum wins ties. An id that does not
resolve on the heap is skipped; JS references cannot dangle, so this branch
is never taken in a state the engine built. -/
def scanLowestPriority (e : EngineState) : List Nat → Nat → Option Nat → Option Nat
  | [], _, best => best
  | tid :: rest, lowest, best =>
    match e.heapGet tid with
    | some t =>
        if t.priority < lowest then scanLowestPriority e rest t.priority (some tid)
        else scanLowestPriority e rest lowest best
    | none => scanLowestPriority e rest lowest best

/-- tryBumpLowerPriorityToken: find the lowest priority occupant strictly
below the incoming priority; on success splice it out of the slot, push it
onto the tail of the waiting queue, and add the incoming token. Returns the
updated slot, the updated engine (queue push), and the success flag. -/
def tryBumpLowerPriorityToken (e : EngineState) (s : Slot) (newTid newPrio : Nat) :
    Slot × EngineState × Bool :=
  match scanLowestPriority e s.tokens newPrio none with
  | some victim =>
      (((s.removeToken victim).1.addToken newTid).1,
       { e with waitingQueue := e.waitingQueue ++ [victim] }, true)
  | none => (s, e, false)

/-- tryAllocateToSlot. `none` models the TypeError the source raises when
the doctor of the token is not in the table (insertEmergencyToken can reach
it); the token id handed in is always the id of a freshly created or queued
token, so the heap lookup never fails at the call sites. -/
def tryAllocateToSlot (e : EngineState) (tid : Nat) (slotTime : Int) :
    Option (EngineState × Bool) :=
  match e.heapGet tid with
  | none => none
  | some token =>
    match e.findDoctor token.doctorId with
    | none => none
    | some doctor =>
      match doctor.findSlot slotTime with
      | none => some (e, false)
      | some slot =>
        if slot.availableCapacity > 0 then
          let r := slot.addToken tid
          some (e.setSlot token.doctorId slotTime r.1, r.2)
        else
          let r := tryBumpLowerPriorityToken e slot tid token.priority
          some ((r.2.1).setSlot token.doctorId slotTime r.1, r.2.2)

/-- canBumpTokenInSlot: some occupant has strictly lower priority. -/
def canBumpTokenInSlot (e : EngineState) (s : Slot) (newPrio : Nat) : Bool :=
  s.tokens.any (fun tid =>
    match e.heapGet tid with
    | some t => t.priority < newPrio
    | none => false)

/-- A candidate hour qualifies when the slot exists and has spare capacity
or a strictly lower priority occupant (the condition of the loop body of
findAlternativeSlot). -/
def slotQualifies (e : EngineState) (d : Doctor) (h : Int) (prio : Nat) : Bool :=
  match d.findSlot h with
  | some s => s.availableCapacity > 0 || canBumpTokenInSlot e s prio
  | none => false

/-- The loop of findAlternativeSlot over the offset list. -/
def findAlternativeLoop (e : EngineState) (d : Doctor) (preferredHour : Int) (prio : Nat) :
    List Int → Option Int
  | [] => none
  | off :: rest =>
      if slotQualifies e d (preferredHour + off) prio then some (preferredHour + off)
      else findAlternativeLoop e d preferredHour prio rest

/-- findAlternativeSlot: probe the offsets -2, -1, 1, 2 in that order. The
source dereferences the doctor unconditionally; the only caller
(allocateToken) has already checked it, so the missing doctor branch is
never taken there. -/
def findAlternativeSlot (e : EngineState) (did : String) (preferredTime : Int) (prio : Nat) :
    Option Int :=
  match e.findDoctor did with
  | none => none
  | some d => findAlternativeLoop e d preferredTime prio [-2, -1, 1, 2]

/-- The loop of findAnyAvailableSlot over the slot table of the doctor in
its insertion order (ascending hour). -/
def findAnyLoop (e : EngineState) (prio : Nat) : List Slot → Option Int
  | [] => none
  | s :: rest =>
      if s.availableCapacity > 0 || canBumpTokenInSlot e s prio then some s.startTime
      else findAnyLoop e prio rest

/-- findAnyAvailableSlot; the outer `none` is the TypeError on a missing
doctor (reachable from processWaitingQueue only through a queued token of an
unknown doctor, which the public operations never produce). -/
def findAnyAvailableSlot (e : EngineState) (did : String) (prio : Nat) :
    Option (Option Int) :=
  match e.findDoctor did with
  | none => none
  | some d => some (findAnyLoop e prio d.slots)

/-- allocateToken. The body of the source is wrapped in try/catch; the
unknown doctor branch is the caught `Error("Doctor not found")`. The token
is created after the doctor check, pushed into the heap, and registered only
after a successful placement. -/
def allocateToken (e : EngineState) (patientId did : String) (preferredTime : Int)
    (source : String) : EngineState × OpResult :=
  match e.findDoctor did with
  | none => (e, ⟨false, none, "Doctor not found"⟩)
  | some _ =>
    let prio := sourcePriority source
    let tid := e.heap.length
    let e0 : EngineState :=
      { e with heap := e.heap ++ [⟨patientId, did, preferredTime, source, prio, .allocated⟩] }
    match tryAllocateToSlot e0 tid preferredTime with
    | none => (e0, ⟨false, none, "TypeError"⟩)   -- unreachable: the doctor was found above
    | some (e1, true) =>
        ({ e1 with registered := e1.registered ++ [tid] },
         ⟨true, some tid, "Token allocated successfully"⟩)
    | some (e1, false) =>
      match findAlternativeSlot e1 did preferredTime prio with
      | some alt =>
        let e2 := e1.setTok tid (fun t => { t with slotTime := alt })
        match tryAllocateToSlot e2 tid alt with
        | none => (e2, ⟨false, none, "TypeError"⟩)   -- unreachable, as above
        | some (e3, true) =>
            ({ e3 with registered := e3.registered ++ [tid] },
             ⟨true, some tid, "Token allocated to alternative slot"⟩)
        | some (e3, false) =>
            ({ e3 with waitingQueue := e3.waitingQueue ++ [tid] },
             ⟨false, some tid, "No slots available, added to waiting queue"⟩)
      | none =>
          ({ e1 with waitingQueue := e1.waitingQueue ++ [tid] },
           ⟨false, some tid, "No slots available, added to waiting queue"⟩)

/-- One iteration body of the replay loop of processWaitingQueue: look for
any available slot of the doctor of the token, on success write the slot
time into the token and try to place it. Returns the new state, whether the
token was placed, and the ids that the step pushed onto the live waiting
queue array (the eviction of tryBumpLowerPriorityToken). -/
def replayStep (e : EngineState) (tid : Nat) : Option (EngineState × Bool × List Nat) :=
  match e.heapGet tid with
  | none => some (e, false, [])   -- unreachable: queued ids are heap ids
  | some token =>
    match findAnyAvailableSlot e token.doctorId token.priority with
    | none => none
    | some none => some (e, false, [])
    | some (some availableSlot) =>
      match tryAllocateToSlot (e.setTok tid (fun t => { t with slotTime := availableSlot }))
          tid availableSlot with
      | none => none
      | some (e2, ok) =>
          some (e2, ok, e2.waitingQueue.drop e.waitingQueue.length)

/-- The for..of loop of processWaitingQueue over the live array: `pending`
is the not yet visited suffix of the array, and ids pushed during a step are
appended to it, exactly as the array iterator of JS sees them. `realloc` and
`stillW` are the reallocated and stillWaiting accumulators; on exhaustion of
the pending list the waiting queue is overwritten with stillWaiting. -/
def replayLoop : Nat → EngineState → List Nat → List Nat → List Nat →
    Option (EngineState × List Nat)
  | 0, _, _, _, _ => none
  | _ + 1, e, [], realloc, stillW => some ({ e with waitingQueue := stillW }, realloc)
  | fuel + 1, e, tid :: pending, realloc, stillW =>
    match replayStep e tid with
    | none => none
    | some (e', true, pushed) => replayLoop fuel e' (pending ++ pushed) (realloc ++ [tid]) stillW
    | some (e', false, pushed) => replayLoop fuel e' (pending ++ pushed) realloc (stillW ++ [tid])

def prioOf (e : EngineState) (tid : Nat) : Nat :=
  match e.heapGet tid with
  | some t => t.priority
  | none => 0

/-- Fuel that dominates the iteration count of the replay loop: every push
made while a token is visited carries a strictly smaller priority than that
token, so the chain spawned by a queued token of priority p has at most
p + 1 members. -/
def replayFuel (e : EngineState) : Nat :=
  (e.waitingQueue.map (fun tid => prioOf e tid + 1)).sum + 1

/-- processWaitingQueue: run the loop over the current queue; the second
component is the reallocated list the source returns. -/
def processWaitingQueue (e : EngineState) : Option (EngineState × List Nat) :=
  replayLoop (replayFuel e) e e.waitingQueue [] []

/-- cancelToken: unknown ids give the "Token not found" failure without any
mutation; otherwise the token is spliced out of the slot recorded in its
slotTime field (when that slot exists), its status set to cancelled, and a
full replay pass runs unconditionally. The `none` on a missing doctor is
the TypeError of the source, unreachable for registered tokens. -/
def cancelToken (e : EngineState) (tokenId : Nat) : Option (EngineState × OpResult) :=
  match e.tokensGet tokenId with
  | none => some (e, ⟨false, none, "Token not found"⟩)
  | some token =>
    match e.findDoctor token.doctorId with
    | none => none
    | some doctor =>
      let e1 :=
        match doctor.findSlot token.slotTime with
        | some _ =>
            e.updateDoctor token.doctorId
              (fun d => d.updateSlot token.slotTime (fun s => (s.removeToken tokenId).1))
        | none => e
      let e2 := e1.setTok tokenId (fun t => { t with status := .cancelled })
      match processWaitingQueue e2 with
      | none => none
      | some (e3, _) => some (e3, ⟨true, some tokenId, "Token cancelled successfully"⟩)

/-- insertEmergencyToken: build a priority 10 token and try only the urgent
slot; on success register it and run a replay pass; on failure report the
failure (the fresh Token object is discarded unregistered). With a doctor
id that is not in the table, tryAllocateToSlot raises the TypeError of the
source: the result is `none`, not an outcome object. -/
def insertEmergencyToken (e : EngineState) (patientId did : String) (urgentTime : Int) :
    Option (EngineState × OpResult) :=
  let tid := e.heap.length
  let e0 : EngineState :=
    { e with heap := e.heap ++ [⟨patientId, did, urgentTime, "emergency", 10, .allocated⟩] }
  match tryAllocateToSlot e0 tid urgentTime with
  | none => none
  | some (e1, true) =>
    let e2 := { e1 with registered := e1.registered ++ [tid] }
    match processWaitingQueue e2 with
    | none => none
    | some (e3, _) => some (e3, ⟨true, some tid, "Emergency token allocated successfully"⟩)
  | some (e1, false) => some (e1, ⟨false, none, "Failed to allocate emergency token"⟩)

/-- Statistics record of getSystemStats. `utilizationRate` is the value of
(allocatedTokens / totalCapacity) * 100 as a rational when the divisor is
nonzero; `none` models the JS result NaN of the unguarded division 0/0 (the
source then reports the string "NaN%"). The decimal formatting of toFixed
is not modelled. -/
structure SystemStats where
  totalDoctors : Nat
  totalSlots : Nat
  occupiedSlots : Nat
  totalCapacity : Nat
  allocatedTokens : Nat
  waitingCount : Nat
  utilizationRate : Option ℚ
deriving DecidableEq

/-- JS division producing a non finite number on a zero divisor. -/
def jsDiv (a b : ℚ) : Option ℚ :=
  if b = 0 then none else some (a / b)

/-- getSystemStats: aggregate over every slot of every doctor. -/
def getSystemStats (e : EngineState) : SystemStats :=
  let slots := e.doctors.flatMap (fun d => d.slots)
  let totalCapacity := (slots.map (fun s => s.maxCapacity)).sum
  let allocatedTokens := (slots.map (fun s => s.tokens.length)).sum
  { totalDoctors := e.doctors.length
    totalSlots := slots.length
    occupiedSlots := (slots.filter (fun s => s.tokens.length > 0)).length
    totalCapacity := totalCapacity
    allocatedTokens := allocatedTokens
    waitingCount := e.waitingQueue.length
    utilizationRate := (jsDiv allocatedTokens totalCapacity).map (fun q => q * 100) }

/-! Basic facts about the list surgery helpers. -/

theorem removeFirst_sublist (tid : Nat) : ∀ l : List Nat, List.Sublist (removeFirst tid l) l
  | [] => List.Sublist.refl _
  | x :: xs => by
      by_cases h : x = tid
      · simp only [removeFirst, if_pos h]
        exact List.sublist_cons_self x xs
      · simpa [removeFirst, h] using (removeFirst_sublist tid xs).cons₂ x

theorem removeFirst_decomp {tid : Nat} : ∀ {l : List Nat}, tid ∈ l →
    ∃ l₁ l₂, l = l₁ ++ tid :: l₂ ∧ tid ∉ l₁ ∧ removeFirst tid l = l₁ ++ l₂
  | [], h => absurd h (List.not_mem_nil tid)
  | x :: xs, h => by
      by_cases hx : x = tid
      · exact ⟨[], xs, by simp [hx], by simp, by simp [removeFirst, hx]⟩
      · have hmem : tid ∈ xs := by
          rcases List.mem_cons.mp h with h1 | h1
          · exact absurd h1.symm hx
          · exact h1
        obtain ⟨l₁, l₂, hdec, hni, hrm⟩ := removeFirst_decomp hmem
        refine ⟨x :: l₁, l₂, by simp [hdec], ?_, by simp [removeFirst, hx, hrm]⟩
        simp only [List.mem_cons, not_or]
        exact ⟨fun hc => hx hc.symm, hni⟩

theorem find?_decomp {α : Type} {p : α → Bool} : ∀ {l : List α} {a : α}, l.find? p = some a →
    ∃ l₁ l₂, l = l₁ ++ a :: l₂ ∧ (∀ x ∈ l₁, p x = false) ∧ p a = true
  | [], a, h => by simp [List.find?] at h
  | x :: xs, a, h => by
      by_cases hx : p x
      · rw [List.find?_cons_of_pos xs hx, Option.some_inj] at h
        exact ⟨[], xs, by simp [h], by simp, h ▸ hx⟩
      · rw [List.find?_cons_of_neg xs hx] at h
        obtain ⟨l₁, l₂, hdec, hall, ha⟩ := find?_decomp h
        refine ⟨x :: l₁, l₂, by simp [hdec], ?_, ha⟩
        intro y hy
        rcases List.mem_cons.mp hy with rfl | hy
        · exact Bool.eq_false_iff.mpr hx
        · exact hall y hy

theorem updateFirst_append {α : Type} (p : α → Bool) (f : α → α) (l₁ l₂ : List α) (a : α)
    (h₁ : ∀ x ∈ l₁, p x = false) (ha : p a = true) :
    updateFirst p f (l₁ ++ a :: l₂) = l₁ ++ f a :: l₂ := by
  induction l₁ with
  | nil => simp [updateFirst, ha]
  | cons x xs ih =>
      have hx : p x = false := h₁ x (List.mem_cons_self x xs)
      have ih' := ih (fun y hy => h₁ y (List.mem_cons_of_mem x hy))
      simp only [List.cons_append, updateFirst, hx, Bool.false_eq_true, if_false]
      exact congrArg (List.cons x) ih'

theorem modifyNth_length (f : Token → Token) : ∀ (n : Nat) (l : List Token),
    (modifyNth f n l).length = l.length := by
  intro n l
  induction l generalizing n with
  | nil => cases n <;> rfl
  | cons t ts ih => cases n with
      | zero => rfl
      | succ n => simp [modifyNth, ih n]

theorem modifyNth_lookup (f : Token → Token) (n m : Nat) (l : List Token) :
    (modifyNth f n l).get? m = if m = n then (l.get? n).map f else l.get? m := by
  induction l generalizing n m with
  | nil => cases n <;> cases m <;> simp [modifyNth]
  | cons t ts ih =>
      cases n with
      | zero => cases m <;> simp [modifyNth]
      | succ n =>
          cases m with
          | zero => simp [modifyNth]
          | succ m =>
              simp only [modifyNth, List.get?]
              rw [ih n m]
              by_cases hmn : m = n
              · rw [if_pos hmn, if_pos (by rw [hmn])]
              · rw [if_neg hmn, if_neg (fun hc => hmn (Nat.succ_injective hc))]

/-! Characterization of the scan of tryBumpLowerPriorityToken. -/

/-- Every priority resolving inside the list is bounded below. -/
def ScanBound (e : EngineState) (l : List Nat) (p : Nat) : Prop :=
  ∀ u ∈ l, ∀ tu : Token, e.heapGet u = some tu → p ≤ tu.priority

theorem scan_isSome_of_some (e : EngineState) : ∀ (l : List Nat) (p : Nat) (w : Nat),
    (scanLowestPriority e l p (some w)).isSome
  | [], _, _ => rfl
  | tid :: rest, p, w => by
      rcases hh : e.heapGet tid with _ | t
      · simpa [scanLowestPriority, hh] using scan_isSome_of_some e rest p w
      · by_cases hcmp : t.priority < p
        · simpa [scanLowestPriority, hh, hcmp] using scan_isSome_of_some e rest t.priority tid
        · simpa [scanLowestPriority, hh, hcmp] using scan_isSome_of_some e rest p w

theorem scan_bound_of_none (e : EngineState) : ∀ (l : List Nat) (p : Nat),
    scanLowestPriority e l p none = none → ScanBound e l p
  | [], _, _ => fun u hu => absurd hu (List.not_mem_nil u)
  | tid :: rest, p, hs => by
      rcases hh : e.heapGet tid with _ | t
      · simp only [scanLowestPriority, hh] at hs
        have := scan_bound_of_none e rest p hs
        intro u hu tu htu
        rcases List.mem_cons.mp hu with rfl | hu
        · rw [hh] at htu; exact absurd htu (by simp)
        · exact this u hu tu htu
      · by_cases hcmp : t.priority < p
        · simp only [scanLowestPriority, hh, if_pos hcmp] at hs
          have := scan_isSome_of_some e rest t.priority tid
          rw [hs] at this
          exact absurd this (by simp)
        · simp only [scanLowestPriority, hh, if_neg hcmp] at hs
          have := scan_bound_of_none e rest p hs
          intro u hu tu htu
          rcases List.mem_cons.mp hu with rfl | hu
          · rw [hh, Option.some_inj] at htu
            exact htu ▸ Nat.not_lt.mp hcmp
          · exact this u hu tu htu

theorem scan_none_of_bound (e : EngineState) : ∀ (l : List Nat) (p : Nat),
    ScanBound e l p → scanLowestPriority e l p none = none
  | [], _, _ => rfl
  | tid :: rest, p, hb => by
      rcases hh : e.heapGet tid with _ | t
      · simp only [scanLowestPriority, hh]
        exact scan_none_of_bound e rest p (fun u hu => hb u (List.mem_cons_of_mem tid hu))
      · have hle : p ≤ t.priority := hb tid (List.mem_cons_self tid rest) t hh
        simp only [scanLowestPriority, hh, if_neg (Nat.not_lt.mpr hle)]
        exact scan_none_of_bound e rest p (fun u hu => hb u (List.mem_cons_of_mem tid hu))

theorem scan_spec (e : EngineState) : ∀ (l : List Nat) (p : Nat) (b : Option Nat) (v : Nat),
    (∀ w, b = some w → ∃ tw : Token, e.heapGet w = some tw ∧ tw.priority = p) →
    scanLowestPriority e l p b = some v →
    (b = some v ∧ ScanBound e l p) ∨
    (∃ l₁ l₂, ∃ tv : Token, l = l₁ ++ v :: l₂ ∧ e.heapGet v = some tv ∧ tv.priority < p ∧
      (∀ u ∈ l₁, ∀ tu : Token, e.heapGet u = some tu → tv.priority < tu.priority) ∧
      ScanBound e l₂ tv.priority)
  | [], p, b, v, _, hs => Or.inl ⟨hs, fun u hu => absurd hu (List.not_mem_nil u)⟩
  | tid :: rest, p, b, v, hb, hs => by
      rcases hh : e.heapGet tid with _ | t
      · simp only [scanLowestPriority, hh] at hs
        rcases scan_spec e rest p b v hb hs with ⟨hbv, hbd⟩ | ⟨l₁, l₂, tv, hdec, hv, hlt, h₁, h₂⟩
        · refine Or.inl ⟨hbv, fun u hu tu htu => ?_⟩
          rcases List.mem_cons.mp hu with rfl | hu
          · rw [hh] at htu; exact absurd htu (by simp)
          · exact hbd u hu tu htu
        · refine Or.inr ⟨tid :: l₁, l₂, tv, by simp [hdec], hv, hlt, ?_, h₂⟩
          intro u hu tu htu
          rcases List.mem_cons.mp hu with rfl | hu
          · rw [hh] at htu; exact absurd htu (by simp)
          · exact h₁ u hu tu htu
      · by_cases hcmp : t.priority < p
        · simp only [scanLowestPriority, hh, if_pos hcmp] at hs
          have hb' : ∀ w, (some tid : Option Nat) = some w →
              ∃ tw : Token, e.heapGet w = some tw ∧ tw.priority = t.priority := by
            intro w hw
            rw [Option.some_inj] at hw
            exact ⟨t, hw ▸ hh, rfl⟩
          rcases scan_spec e rest t.priority (some tid) v hb' hs with
            ⟨hbv, hbd⟩ | ⟨l₁, l₂, tv, hdec, hv, hlt, h₁, h₂⟩
          · rw [Option.some_inj] at hbv
            subst hbv
            exact Or.inr ⟨[], rest, t, by simp, hh, hcmp, by simp, hbd⟩
          · refine Or.inr ⟨tid :: l₁, l₂, tv, by simp [hdec], hv,
              lt_trans hlt hcmp, ?_, h₂⟩
            intro u hu tu htu
            rcases List.mem_cons.mp hu with rfl | hu
            · rw [hh, Option.some_inj] at htu
              exact htu ▸ hlt
            · exact h₁ u hu tu htu
        · simp only [scanLowestPriority, hh, if_neg hcmp] at hs
          rcases scan_spec e rest p b v hb hs with ⟨hbv, hbd⟩ | ⟨l₁, l₂, tv, hdec, hv, hlt, h₁, h₂⟩
          · refine Or.inl ⟨hbv, fun u hu tu htu => ?_⟩
            rcases List.mem_cons.mp hu with rfl | hu
            · rw [hh, Option.some_inj] at htu
              exact htu ▸ Nat.not_lt.mp hcmp
            · exact hbd u hu tu htu
          · refine Or.inr ⟨tid :: l₁, l₂, tv, by simp [hdec], hv, hlt, ?_, h₂⟩
            intro u hu tu htu
            rcases List.mem_cons.mp hu with rfl | hu
            · rw [hh, Option.some_inj] at htu
              exact htu ▸ lt_of_lt_of_le hlt (Nat.not_lt.mp hcmp)
            · exact h₁ u hu tu htu

/-- The scan seeded with no candidate returns a victim exactly when some
occupant resolves strictly below the incoming priority. -/
theorem scan_some_iff (e : EngineState) (l : List Nat) (p : Nat) :
    (∃ v, scanLowestPriority e l p none = some v) ↔
    ∃ u ∈ l, ∃ tu : Token, e.heapGet u = some tu ∧ tu.priority < p := by
  constructor
  · rintro ⟨v, hv⟩
    rcases scan_spec e l p none v (by simp) hv with ⟨h, _⟩ | ⟨l₁, l₂, tv, hdec, hvv, hlt, _, _⟩
    · exact absurd h (by simp)
    · exact ⟨v, by simp [hdec], tv, hvv, hlt⟩
  · rintro ⟨u, hu, tu, htu, hlt⟩
    rcases ho : scanLowestPriority e l p none with _ | v
    · exact absurd (scan_bound_of_none e l p ho u hu tu htu) (Nat.not_le.mpr hlt)
    · exact ⟨v, rfl⟩

/-! State surgery: decomposing the doctor and slot tables around an update. -/

/-- All token ids a doctor currently holds in slots. -/
def Doctor.placed (d : Doctor) : List Nat := d.slots.flatMap (fun s => s.tokens)

/-- All token ids held in any slot of any doctor. -/
def placedIds (e : EngineState) : List Nat := e.doctors.flatMap Doctor.placed

theorem mem_placedIds {e : EngineState} {x : Nat} :
    x ∈ placedIds e ↔ ∃ d ∈ e.doctors, ∃ s ∈ d.slots, x ∈ s.tokens := by
  simp [placedIds, Doctor.placed]

@[simp] theorem updateDoctor_heap (e : EngineState) (did : String) (f : Doctor → Doctor) :
    (e.updateDoctor did f).heap = e.heap := rfl

@[simp] theorem updateDoctor_registered (e : EngineState) (did : String) (f : Doctor → Doctor) :
    (e.updateDoctor did f).registered = e.registered := rfl

@[simp] theorem updateDoctor_queue (e : EngineState) (did : String) (f : Doctor → Doctor) :
    (e.updateDoctor did f).waitingQueue = e.waitingQueue := rfl

@[simp] theorem setTok_doctors (e : EngineState) (tid : Nat) (f : Token → Token) :
    (e.setTok tid f).doctors = e.doctors := rfl

@[simp] theorem setTok_registered (e : EngineState) (tid : Nat) (f : Token → Token) :
    (e.setTok tid f).registered = e.registered := rfl

@[simp] theorem setTok_queue (e : EngineState) (tid : Nat) (f : Token → Token) :
    (e.setTok tid f).waitingQueue = e.waitingQueue := rfl

@[simp] theorem setTok_heap_length (e : EngineState) (tid : Nat) (f : Token → Token) :
    (e.setTok tid f).heap.length = e.heap.length := modifyNth_length f tid e.heap

theorem setTok_heapGet (e : EngineState) (tid : Nat) (f : Token → Token) (x : Nat) :
    (e.setTok tid f).heapGet x = if x = tid then (e.heapGet tid).map f else e.heapGet x :=
  modifyNth_lookup f tid x e.heap

@[simp] theorem placedIds_setTok (e : EngineState) (tid : Nat) (f : Token → Token) :
    placedIds (e.setTok tid f) = placedIds e := rfl

@[simp] theorem placedIds_queue (e : EngineState) (q : List Nat) :
    placedIds { e with waitingQueue := q } = placedIds e := rfl

@[simp] theorem placedIds_heap (e : EngineState) (hp : List Token) :
    placedIds { e with heap := hp } = placedIds e := rfl

/-- Locating a doctor and one of its slots decomposes the placed ids into a
fixed frame around the occupant list of that slot, for the original state
and for every state obtained by rewriting that one slot. -/
theorem slot_surgery {e : EngineState} {did : String} {h : Int} {d : Doctor} {s : Slot}
    (hd : e.findDoctor did = some d) (hs : d.findSlot h = some s) :
    ∃ A B, placedIds e = A ++ s.tokens ++ B ∧
      ∀ f : Slot → Slot,
        placedIds (e.updateDoctor did (fun d0 => Doctor.updateSlot d0 h f)) =
          A ++ (f s).tokens ++ B ∧
        ∀ d' ∈ (e.updateDoctor did (fun d0 => Doctor.updateSlot d0 h f)).doctors,
          ∀ s' ∈ d'.slots, (∃ d0 ∈ e.doctors, s' ∈ d0.slots) ∨ s' = f s := by
  obtain ⟨D₁, D₂, hDdec, hD₁, hDp⟩ := find?_decomp hd
  obtain ⟨S₁, S₂, hSdec, hS₁, hSp⟩ := find?_decomp hs
  refine ⟨D₁.flatMap Doctor.placed ++ S₁.flatMap (fun s0 => s0.tokens),
          S₂.flatMap (fun s0 => s0.tokens) ++ D₂.flatMap Doctor.placed, ?_, ?_⟩
  · simp [placedIds, hDdec, Doctor.placed, hSdec]
  · intro f
    have hupd : (e.updateDoctor did (fun d0 => Doctor.updateSlot d0 h f)).doctors =
        D₁ ++ (Doctor.updateSlot d h f) :: D₂ := by
      simp only [EngineState.updateDoctor, hDdec]
      exact updateFirst_append _ _ D₁ D₂ d hD₁ hDp
    have hslots : (Doctor.updateSlot d h f).slots = S₁ ++ f s :: S₂ := by
      simp only [Doctor.updateSlot, hSdec]
      exact updateFirst_append _ _ S₁ S₂ s hS₁ hSp
    constructor
    · simp only [placedIds, hupd]
      simp [Doctor.placed, hslots]
    · intro d' hd' s' hs'
      rw [hupd] at hd'
      rcases List.mem_append.mp hd' with hmem | hmem
      · exact Or.inl ⟨d', by
          rw [hDdec]
          exact List.mem_append.mpr (Or.inl hmem), hs'⟩
      · rcases List.mem_cons.mp hmem with rfl | hmem
        · rw [hslots] at hs'
          rcases List.mem_append.mp hs' with hsm | hsm
          · refine Or.inl ⟨d, by
              rw [hDdec]
              exact List.mem_append.mpr (Or.inr (List.mem_cons_self d D₂)), ?_⟩
            rw [hSdec]
            exact List.mem_append.mpr (Or.inl hsm)
          · rcases List.mem_cons.mp hsm with rfl | hsm
            · exact Or.inr rfl
            · refine Or.inl ⟨d, by
                rw [hDdec]
                exact List.mem_append.mpr (Or.inr (List.mem_cons_self d D₂)), ?_⟩
              rw [hSdec]
              exact List.mem_append.mpr (Or.inr (List.mem_cons_of_mem s hsm))
        · exact Or.inl ⟨d', by
            rw [hDdec]
            exact List.mem_append.mpr (Or.inr (List.mem_cons_of_mem d hmem)), hs'⟩

/-- Writing the found slot back unchanged leaves the state unchanged. -/
theorem setSlot_self {e : EngineState} {did : String} {h : Int} {d : Doctor} {s : Slot}
    (hd : e.findDoctor did = some d) (hs : d.findSlot h = some s) :
    e.setSlot did h s = e := by
  obtain ⟨D₁, D₂, hDdec, hD₁, hDp⟩ := find?_decomp hd
  obtain ⟨S₁, S₂, hSdec, hS₁, hSp⟩ := find?_decomp hs
  have hdfix : Doctor.updateSlot d h (fun _ => s) = d := by
    have : (Doctor.updateSlot d h (fun _ => s)).slots = d.slots := by
      simp only [Doctor.updateSlot, hSdec]
      exact updateFirst_append _ _ S₁ S₂ s hS₁ hSp
    cases d
    simpa [Doctor.updateSlot] using this
  have : (e.setSlot did h s).doctors = e.doctors := by
    simp only [EngineState.setSlot, EngineState.updateDoctor, hDdec]
    rw [updateFirst_append _ _ D₁ D₂ d hD₁ hDp, hdfix]
  cases e
  simpa [EngineState.setSlot, EngineState.updateDoctor] using this

/-! Case analysis of tryAllocateToSlot. -/

theorem tryAlloc_cases {e : EngineState} {tid : Nat} {h : Int} {e' : EngineState} {ok : Bool}
    (heq : tryAllocateToSlot e tid h = some (e', ok)) :
    (ok = false ∧ e' = e) ∨
    (ok = true ∧ ∃ token : Token, ∃ doctor : Doctor, ∃ slot : Slot,
      e.heapGet tid = some token ∧ e.findDoctor token.doctorId = some doctor ∧
      doctor.findSlot h = some slot ∧
      ((slot.availableCapacity > 0 ∧
         e' = e.setSlot token.doctorId h (slot.addToken tid).1) ∨
       (¬ slot.availableCapacity > 0 ∧ ∃ v,
         scanLowestPriority e slot.tokens token.priority none = some v ∧
         e' = { e.setSlot token.doctorId h (((slot.removeToken v).1.addToken tid).1) with
                waitingQueue := e.waitingQueue ++ [v] }))) := by
  unfold tryAllocateToSlot at heq
  split at heq
  · exact absurd heq (by simp)
  rename_i token ht
  split at heq
  · exact absurd heq (by simp)
  rename_i doctor hd
  split at heq
  · rw [Option.some_inj, Prod.mk.injEq] at heq
    exact Or.inl ⟨heq.2.symm, heq.1.symm⟩
  rename_i slot hsl
  split at heq
  · rename_i hav
    simp only [Option.some_inj, Prod.mk.injEq] at heq
    have haddok : (slot.addToken tid).2 = true := by simp [Slot.addToken, hav]
    exact Or.inr ⟨by rw [← heq.2, haddok], token, doctor, slot, ht, hd, hsl,
      Or.inl ⟨hav, heq.1.symm⟩⟩
  · rename_i hav
    unfold tryBumpLowerPriorityToken at heq
    rcases hscan : scanLowestPriority e slot.tokens token.priority none with _ | v
    · rw [hscan] at heq
      simp only [Option.some_inj, Prod.mk.injEq] at heq
      refine Or.inl ⟨heq.2.symm, ?_⟩
      rw [← heq.1]
      exact setSlot_self hd hsl
    · rw [hscan] at heq
      simp only [Option.some_inj, Prod.mk.injEq] at heq
      exact Or.inr ⟨heq.2.symm, token, doctor, slot, ht, hd, hsl,
        Or.inr ⟨hav, v, hscan, heq.1.symm⟩⟩

theorem tryAlloc_heap {e : EngineState} {tid : Nat} {h : Int} {e' : EngineState} {ok : Bool}
    (heq : tryAllocateToSlot e tid h = some (e', ok)) : e'.heap = e.heap := by
  rcases tryAlloc_cases heq with ⟨_, rfl⟩ | ⟨_, token, doctor, slot, _, _, _, hcase⟩
  · rfl
  · rcases hcase with ⟨_, rfl⟩ | ⟨_, v, _, rfl⟩ <;> rfl

theorem tryAlloc_registered {e : EngineState} {tid : Nat} {h : Int} {e' : EngineState}
    {ok : Bool} (heq : tryAllocateToSlot e tid h = some (e', ok)) :
    e'.registered = e.registered := by
  rcases tryAlloc_cases heq with ⟨_, rfl⟩ | ⟨_, token, doctor, slot, _, _, _, hcase⟩
  · rfl
  · rcases hcase with ⟨_, rfl⟩ | ⟨_, v, _, rfl⟩ <;> rfl

theorem tryAlloc_queue {e : EngineState} {tid : Nat} {h : Int} {e' : EngineState} {ok : Bool}
    (heq : tryAllocateToSlot e tid h = some (e', ok)) :
    ∃ extra, e'.waitingQueue = e.waitingQueue ++ extra ∧
      (extra = [] ∨ ∃ v, extra = [v] ∧ v ∈ placedIds e) := by
  rcases tryAlloc_cases heq with ⟨_, rfl⟩ | ⟨_, token, doctor, slot, ht, hd, hsl, hcase⟩
  · exact ⟨[], by simp, Or.inl rfl⟩
  · rcases hcase with ⟨_, rfl⟩ | ⟨_, v, hscan, rfl⟩
    · exact ⟨[], by simp [EngineState.setSlot], Or.inl rfl⟩
    · refine ⟨[v], rfl, Or.inr ⟨v, rfl, ?_⟩⟩
      rcases scan_spec e slot.tokens token.priority none v (by simp) hscan with
        ⟨hc, _⟩ | ⟨l₁, l₂, tv, hdec, _, _, _, _⟩
      · exact absurd hc (by simp)
      · exact mem_placedIds.mpr ⟨doctor, List.mem_of_find?_eq_some hd, slot,
          List.mem_of_find?_eq_some hsl, by simp [hdec]⟩

theorem addToken_tokens_sub (s : Slot) (tid : Nat) :
    ∀ y ∈ (s.addToken tid).1.tokens, y = tid ∨ y ∈ s.tokens := by
  intro y hy
  by_cases h : s.availableCapacity > 0
  · simp only [Slot.addToken, if_pos h, List.mem_append, List.mem_singleton] at hy
    rcases hy with hy | hy
    · exact Or.inr hy
    · exact Or.inl hy
  · simp only [Slot.addToken, if_neg h] at hy
    exact Or.inr hy

theorem removeToken_tokens_sub (s : Slot) (v : Nat) :
    ∀ y ∈ (s.removeToken v).1.tokens, y ∈ s.tokens := by
  intro y hy
  by_cases h : v ∈ s.tokens
  · simp only [Slot.removeToken, if_pos h] at hy
    exact (removeFirst_sublist v s.tokens).mem hy
  · simpa [Slot.removeToken, h] using hy

theorem tryAlloc_placed_sub {e : EngineState} {tid : Nat} {h : Int} {e' : EngineState}
    {ok : Bool} (heq : tryAllocateToSlot e tid h = some (e', ok)) :
    ∀ x ∈ placedIds e', x = tid ∨ x ∈ placedIds e := by
  rcases tryAlloc_cases heq with ⟨_, rfl⟩ | ⟨_, token, doctor, slot, ht, hd, hsl, hcase⟩
  · exact fun x hx => Or.inr hx
  · obtain ⟨A, B, hAB, hupd⟩ := slot_surgery hd hsl
    have key : ∀ (s' : Slot), (∀ y ∈ s'.tokens, y = tid ∨ y ∈ slot.tokens) →
        ∀ x ∈ A ++ s'.tokens ++ B, x = tid ∨ x ∈ placedIds e := by
      intro s' hsub x hx
      rcases List.mem_append.mp hx with hx | hx
      · rcases List.mem_append.mp hx with hx | hx
        · exact Or.inr (by rw [hAB]; simp [hx])
        · rcases hsub x hx with rfl | hx
          · exact Or.inl rfl
          · exact Or.inr (by rw [hAB]; simp [hx])
      · exact Or.inr (by rw [hAB]; simp [hx])
    rcases hcase with ⟨hav, rfl⟩ | ⟨hav, v, hscan, rfl⟩
    · intro x hx
      rw [EngineState.setSlot, (hupd _).1] at hx
      exact key _ (addToken_tokens_sub slot tid) x hx
    · intro x hx
      rw [show placedIds { e.setSlot token.doctorId h (((slot.removeToken v).1.addToken tid).1)
            with waitingQueue := e.waitingQueue ++ [v] } =
          placedIds (e.setSlot token.doctorId h (((slot.removeToken v).1.addToken tid).1))
          from rfl, EngineState.setSlot, (hupd _).1] at hx
      refine key _ ?_ x hx
      intro y hy
      rcases addToken_tokens_sub _ tid y hy with rfl | hy
      · exact Or.inl rfl
      · exact Or.inr (removeToken_tokens_sub slot v y hy)

/-! The slot side of the capacity invariant. -/

/-- The per slot invariant of the claim: the fixed maximum of 10, occupant
count within capacity, the stored availableCapacity consistent with the
occupant list, and no duplicate occupant ids. -/
def SlotOk (s : Slot) : Prop :=
  s.maxCapacity = 10 ∧ s.tokens.length ≤ s.maxCapacity ∧
  s.availableCapacity = (s.maxCapacity : Int) - (s.tokens.length : Int) ∧ s.tokens.Nodup

/-- Invariant over the slot tables and the heap: every slot is well formed,
no token id occupies two slot positions anywhere, and every placed id is a
live heap id. -/
structure SlotInv (e : EngineState) : Prop where
  slots_ok : ∀ d ∈ e.doctors, ∀ s ∈ d.slots, SlotOk s
  placed_nodup : (placedIds e).Nodup
  placed_lt : ∀ tid ∈ placedIds e, tid < e.heap.length

theorem addToken_ok {s : Slot} {tid : Nat} (hok : SlotOk s) (htid : tid ∉ s.tokens) :
    SlotOk (s.addToken tid).1 := by
  obtain ⟨hmax, hlen, hav, hnd⟩ := hok
  by_cases h : s.availableCapacity > 0
  · have hlt : s.tokens.length < s.maxCapacity := by
      rw [hav] at h
      omega
    simp only [SlotOk, Slot.addToken, if_pos h]
    refine ⟨hmax, ?_, ?_, ?_⟩
    · simp only [List.length_append, List.length_singleton]
      omega
    · simp only [List.length_append, List.length_singleton, hav]
      push_cast
      ring
    · simp [List.nodup_append, hnd, htid]
  · have hsame : (s.addToken tid).1 = s := by simp [Slot.addToken, h]
    rw [hsame]
    exact ⟨hmax, hlen, hav, hnd⟩

theorem removeToken_ok {s : Slot} {tid : Nat} (hok : SlotOk s) :
    SlotOk (s.removeToken tid).1 := by
  obtain ⟨hmax, hlen, hav, hnd⟩ := hok
  by_cases h : tid ∈ s.tokens
  · obtain ⟨l₁, l₂, hdec, _, hrm⟩ := removeFirst_decomp h
    have hlen' : (removeFirst tid s.tokens).length + 1 = s.tokens.length := by
      rw [hrm, hdec]
      simp only [List.length_append, List.length_cons]
      omega
    simp only [SlotOk, Slot.removeToken, if_pos h]
    refine ⟨hmax, ?_, ?_, ?_⟩
    · omega
    · rw [hav]
      have : ((removeFirst tid s.tokens).length : Int) = (s.tokens.length : Int) - 1 := by
        omega
      rw [this]
      ring
    · exact hnd.sublist (removeFirst_sublist tid s.tokens)
  · have hsame : (s.removeToken tid).1 = s := by simp [Slot.removeToken, h]
    rw [hsame]
    exact ⟨hmax, hlen, hav, hnd⟩

/-- In the bump path the slot is full, so one removal plus one insertion
keeps the invariant, and the resulting occupant list is explicit. -/
theorem bump_slot_ok {s : Slot} {v tid : Nat} (hok : SlotOk s) (hv : v ∈ s.tokens)
    (htid : tid ∉ s.tokens) :
    SlotOk (((s.removeToken v).1.addToken tid).1) ∧
    (((s.removeToken v).1.addToken tid).1).tokens = removeFirst v s.tokens ++ [tid] := by
  have hrem : SlotOk (s.removeToken v).1 := removeToken_ok hok
  have htid' : tid ∉ (s.removeToken v).1.tokens := by
    intro hc
    exact htid (removeToken_tokens_sub s v tid hc)
  refine ⟨addToken_ok hrem htid', ?_⟩
  obtain ⟨hmax, hlen, hav, _⟩ := hok
  obtain ⟨l₁, l₂, hdec, _, hrm⟩ := removeFirst_decomp hv
  have hlen' : (removeFirst v s.tokens).length + 1 = s.tokens.length := by
    rw [hrm, hdec]
    simp only [List.length_append, List.length_cons]
    omega
  have hpos : (0 : Int) < s.availableCapacity + 1 := by
    rw [hav]
    omega
  simp [Slot.removeToken, if_pos hv, Slot.addToken, hpos]

/-- Full specification of tryAllocateToSlot under the slot invariant, for a
fresh incoming token id. -/
theorem tryAlloc_spec {e : EngineState} {tid : Nat} {h : Int} {e' : EngineState} {ok : Bool}
    (hInv : SlotInv e) (hfresh : tid ∉ placedIds e) (hlt : tid < e.heap.length)
    (heq : tryAllocateToSlot e tid h = some (e', ok)) :
    SlotInv e' ∧ e'.heap = e.heap ∧ e'.registered = e.registered ∧
    (∀ x ∈ placedIds e', x = tid ∨ x ∈ placedIds e) ∧
    ((ok = false ∧ e' = e) ∨
     (ok = true ∧ (e'.waitingQueue = e.waitingQueue ∨
        ∃ v, v ∈ placedIds e ∧ v ∉ placedIds e' ∧ v ≠ tid ∧ v < e.heap.length ∧
          e'.waitingQueue = e.waitingQueue ++ [v]))) := by
  have hsub := tryAlloc_placed_sub heq
  have hheap := tryAlloc_heap heq
  have hreg := tryAlloc_registered heq
  rcases tryAlloc_cases heq with ⟨hok, rfl⟩ | ⟨hok, token, doctor, slot, ht, hd, hsl, hcase⟩
  · exact ⟨hInv, rfl, rfl, fun x hx => Or.inr hx, Or.inl ⟨hok, rfl⟩⟩
  · have hdm : doctor ∈ e.doctors := List.mem_of_find?_eq_some hd
    have hsm : slot ∈ doctor.slots := List.mem_of_find?_eq_some hsl
    have hslok : SlotOk slot := hInv.slots_ok doctor hdm slot hsm
    have htid : tid ∉ slot.tokens := by
      intro hc
      exact hfresh (mem_placedIds.mpr ⟨doctor, hdm, slot, hsm, hc⟩)
    obtain ⟨A, B, hAB, hupd⟩ := slot_surgery hd hsl
    have hplt : ∀ x ∈ placedIds e', x < e.heap.length := by
      intro x hx
      rcases hsub x hx with rfl | hx
      · exact hlt
      · exact hInv.placed_lt x hx
    rcases hcase with ⟨hav, rfl⟩ | ⟨hav, v, hscan, he'⟩
    · -- capacity path
      have hpl : placedIds (e.setSlot token.doctorId h (slot.addToken tid).1) =
          A ++ (slot.tokens ++ [tid]) ++ B := by
        rw [EngineState.setSlot, (hupd _).1]
        simp [Slot.addToken, hav]
      have hnd : (placedIds (e.setSlot token.doctorId h (slot.addToken tid).1)).Nodup := by
        rw [hpl]
        have h1 : A ++ (slot.tokens ++ [tid]) ++ B = (A ++ slot.tokens) ++ tid :: B := by
          simp [List.append_assoc]
        rw [h1, List.nodup_middle, List.nodup_cons]
        have h2 : (A ++ slot.tokens) ++ B = A ++ slot.tokens ++ B := by
          simp [List.append_assoc]
        rw [h2, ← hAB]
        exact ⟨hfresh, hInv.placed_nodup⟩
      refine ⟨⟨?_, hnd, by intro x hx; rw [hheap]; exact hplt x hx⟩, hheap, hreg, hsub,
        Or.inr ⟨hok, Or.inl ?_⟩⟩
      · intro d' hd' s' hs'
        rcases (hupd _).2 d' hd' s' hs' with ⟨d0, hd0, hs0⟩ | rfl
        · exact hInv.slots_ok d0 hd0 s' hs0
        · exact addToken_ok hslok htid
      · simp [EngineState.setSlot]
    · -- bump path
      have hvm : v ∈ slot.tokens := by
        rcases scan_spec e slot.tokens token.priority none v (by simp) hscan with
          ⟨hc, _⟩ | ⟨l₁, l₂, tv, hdec, _, _, _, _⟩
        · exact absurd hc (by simp)
        · simp [hdec]
      obtain ⟨hbok, hbtok⟩ := bump_slot_ok hslok hvm htid
      obtain ⟨T₁, T₂, hTdec, _, hTrm⟩ := removeFirst_decomp hvm
      have hpl : placedIds e' = A ++ (removeFirst v slot.tokens ++ [tid]) ++ B := by
        rw [he']
        rw [show placedIds { e.setSlot token.doctorId h (((slot.removeToken v).1.addToken tid).1)
              with waitingQueue := e.waitingQueue ++ [v] } =
            placedIds (e.setSlot token.doctorId h (((slot.removeToken v).1.addToken tid).1))
            from rfl, EngineState.setSlot, (hupd _).1, hbtok]
      have h0 : placedIds e = (A ++ T₁) ++ v :: (T₂ ++ B) := by
        rw [hAB, hTdec]
        simp [List.append_assoc]
      have h1 : placedIds e' = (A ++ T₁ ++ T₂) ++ tid :: B := by
        rw [hpl, hTrm]
        simp [List.append_assoc]
      have hnd0 : (v :: ((A ++ T₁) ++ (T₂ ++ B))).Nodup := by
        rw [← List.nodup_middle, ← h0]
        exact hInv.placed_nodup
      have hvno : v ∉ (A ++ T₁) ++ (T₂ ++ B) := (List.nodup_cons.mp hnd0).1
      have hrest : ((A ++ T₁) ++ (T₂ ++ B)).Nodup := (List.nodup_cons.mp hnd0).2
      have htid0 : tid ∉ (A ++ T₁) ++ v :: (T₂ ++ B) := by
        rw [← h0]
        exact hfresh
      have hnd' : (placedIds e').Nodup := by
        rw [h1, List.nodup_middle, List.nodup_cons]
        constructor
        · intro hc
          simp only [List.mem_append, List.mem_cons] at hc htid0
          tauto
        · have hassoc : (A ++ T₁ ++ T₂) ++ B = (A ++ T₁) ++ (T₂ ++ B) := by
            simp [List.append_assoc]
          rw [hassoc]
          exact hrest
      have hvne : v ≠ tid := by
        intro hc
        apply hfresh
        rw [← hc, hAB]
        simp [hvm]
      have hvp : v ∈ placedIds e := by
        rw [hAB]
        simp [hvm]
      have hvnp : v ∉ placedIds e' := by
        rw [h1]
        intro hc
        simp only [List.mem_append, List.mem_cons] at hc hvno
        tauto
      refine ⟨⟨?_, hnd', by intro x hx; rw [hheap]; exact hplt x hx⟩, hheap, hreg, hsub,
        Or.inr ⟨hok, Or.inr ⟨v, hvp, hvnp, hvne, hInv.placed_lt v hvp, by rw [he']⟩⟩⟩
      intro d' hd' s' hs'
      rw [he'] at hd'
      rcases (hupd _).2 d' hd' s' hs' with ⟨d0, hd0, hs0⟩ | rfl
      · exact hInv.slots_ok d0 hd0 s' hs0
      · exact hbok

/-- Specification of one replay iteration body under the slot invariant. -/
theorem replayStep_spec {e : EngineState} {tid : Nat} {e' : EngineState} {ok : Bool}
    {pushed : List Nat}
    (hInv : SlotInv e) (hfresh : tid ∉ placedIds e) (hlt : tid < e.heap.length)
    (heq : replayStep e tid = some (e', ok, pushed)) :
    SlotInv e' ∧ e'.heap.length = e.heap.length ∧ e'.registered = e.registered ∧
    (∀ x ∈ placedIds e', x = tid ∨ x ∈ placedIds e) ∧
    e'.waitingQueue = e.waitingQueue ++ pushed ∧
    (pushed = [] ∨ ∃ v, pushed = [v] ∧ v ∈ placedIds e ∧ v ∉ placedIds e' ∧ v ≠ tid ∧
      v < e.heap.length) ∧
    (ok = false → placedIds e' = placedIds e ∧ pushed = []) := by
  unfold replayStep at heq
  split at heq
  · simp only [Option.some_inj, Prod.mk.injEq] at heq
    obtain ⟨h1, h2, h3⟩ := heq
    subst h1; subst h2; subst h3
    exact ⟨hInv, rfl, rfl, fun x hx => Or.inr hx, by simp, Or.inl rfl,
      fun _ => ⟨rfl, rfl⟩⟩
  rename_i token ht
  split at heq
  · exact absurd heq (by simp)
  · simp only [Option.some_inj, Prod.mk.injEq] at heq
    obtain ⟨h1, h2, h3⟩ := heq
    subst h1; subst h2; subst h3
    exact ⟨hInv, rfl, rfl, fun x hx => Or.inr hx, by simp, Or.inl rfl,
      fun _ => ⟨rfl, rfl⟩⟩
  rename_i availableSlot hfind
  split at heq
  · exact absurd heq (by simp)
  rename_i e₂ ok₂ htry
  simp only [Option.some_inj, Prod.mk.injEq] at heq
  obtain ⟨h1, h2, h3⟩ := heq
  subst h1; subst h2; subst h3
  set e₁ := e.setTok tid (fun t => { t with slotTime := availableSlot }) with he₁
  have hInv₁ : SlotInv e₁ :=
    ⟨hInv.slots_ok, hInv.placed_nodup,
     fun x hx => by rw [setTok_heap_length]; exact hInv.placed_lt x hx⟩
  have hlt₁ : tid < e₁.heap.length := by rw [setTok_heap_length]; exact hlt
  have hfresh₁ : tid ∉ placedIds e₁ := hfresh
  obtain ⟨hInv₂, hheap₂, hreg₂, hsub₂, hcase₂⟩ := tryAlloc_spec hInv₁ hfresh₁ hlt₁ htry
  have hlen₂ : e₂.heap.length = e.heap.length := by
    rw [hheap₂, setTok_heap_length]
  have hq₁ : e₁.waitingQueue = e.waitingQueue := rfl
  refine ⟨hInv₂, hlen₂, hreg₂, hsub₂, ?_, ?_, ?_⟩
  · rcases hcase₂ with ⟨_, rfl⟩ | ⟨_, hq⟩
    · simp [hq₁]
    · rcases hq with hq | ⟨v, _, _, _, _, hq⟩
      · rw [hq, hq₁]
        simp
      · rw [hq, hq₁, List.drop_left]
  · rcases hcase₂ with ⟨_, rfl⟩ | ⟨_, hq⟩
    · exact Or.inl (by simp [hq₁])
    · rcases hq with hq | ⟨v, hv1, hv2, hv3, hv4, hq⟩
      · exact Or.inl (by rw [hq, hq₁]; simp)
      · refine Or.inr ⟨v, by rw [hq, hq₁, List.drop_left], hv1, hv2, hv3, ?_⟩
        rw [← setTok_heap_length e tid (fun t => { t with slotTime := availableSlot })]
        exact hv4
  · intro hok
    rcases hcase₂ with ⟨_, rfl⟩ | ⟨htrue, _⟩
    · exact ⟨rfl, by simp [hq₁]⟩
    · rw [htrue] at hok
      exact absurd hok (by simp)

/-- The replay loop preserves the slot invariant, and the queue it leaves
behind is duplicate free, disjoint from every slot, and within the heap. -/
theorem replayLoop_inv : ∀ (fuel : Nat) (e : EngineState) (pending realloc stillW : List Nat)
    (e' : EngineState) (r : List Nat),
    SlotInv e → pending.Nodup →
    (∀ x ∈ pending, x ∉ placedIds e ∧ x < e.heap.length) →
    stillW.Nodup →
    (∀ x ∈ stillW, x ∉ placedIds e ∧ x ∉ pending ∧ x < e.heap.length) →
    replayLoop fuel e pending realloc stillW = some (e', r) →
    SlotInv e' ∧ e'.waitingQueue.Nodup ∧
    (∀ x ∈ e'.waitingQueue, x ∉ placedIds e' ∧ x < e'.heap.length) ∧
    e'.registered = e.registered ∧ e'.heap.length = e.heap.length
  | 0, e, pending, realloc, stillW, e', r, _, _, _, _, _, heq => by
      simp [replayLoop] at heq
  | fuel + 1, e, [], realloc, stillW, e', r, hInv, _, _, hWnd, hW, heq => by
      simp only [replayLoop, Option.some_inj, Prod.mk.injEq] at heq
      obtain ⟨h1, _⟩ := heq
      subst h1
      exact ⟨⟨hInv.slots_ok, hInv.placed_nodup, hInv.placed_lt⟩, hWnd,
        fun x hx => ⟨(hW x hx).1, (hW x hx).2.2⟩, rfl, rfl⟩
  | fuel + 1, e, tid :: pending, realloc, stillW, e', r, hInv, hPnd, hP, hWnd, hW, heq => by
      simp only [replayLoop] at heq
      split at heq
      · exact absurd heq (by simp)
      · rename_i e₁ pushed hstep
        have htid := hP tid (List.mem_cons_self tid pending)
        obtain ⟨hInv₁, hlen₁, hreg₁, hsub₁, hqueue₁, hpush₁, _⟩ :=
          replayStep_spec hInv htid.1 htid.2 hstep
        have hPnd' : pending.Nodup := (List.nodup_cons.mp hPnd).2
        have htidnp : tid ∉ pending := (List.nodup_cons.mp hPnd).1
        have hpend' : (pending ++ pushed).Nodup := by
          rw [List.nodup_append]
          refine ⟨hPnd', ?_, ?_⟩
          · rcases hpush₁ with rfl | ⟨v, rfl, _⟩
            · exact List.nodup_nil
            · simp
          · intro x hx hy
            rcases hpush₁ with rfl | ⟨v, rfl, hv1, _⟩
            · exact absurd hy (List.not_mem_nil x)
            · rw [List.mem_singleton] at hy
              subst hy
              exact (hP x (List.mem_cons_of_mem tid hx)).1 hv1
        have hP' : ∀ x ∈ pending ++ pushed, x ∉ placedIds e₁ ∧ x < e₁.heap.length := by
          intro x hx
          rcases List.mem_append.mp hx with hx | hx
          · refine ⟨?_, by rw [hlen₁]; exact (hP x (List.mem_cons_of_mem tid hx)).2⟩
            intro hc
            rcases hsub₁ x hc with rfl | hc
            · exact htidnp hx
            · exact (hP x (List.mem_cons_of_mem tid hx)).1 hc
          · rcases hpush₁ with rfl | ⟨v, rfl, hv1, hv2, _, hv4⟩
            · exact absurd hx (List.not_mem_nil x)
            · rw [List.mem_singleton] at hx
              subst hx
              exact ⟨hv2, by rw [hlen₁]; exact hv4⟩
        have hW' : ∀ x ∈ stillW, x ∉ placedIds e₁ ∧ x ∉ pending ++ pushed ∧
            x < e₁.heap.length := by
          intro x hx
          obtain ⟨hx1, hx2, hx3⟩ := hW x hx
          have hxtid : x ≠ tid := fun hc => hx2 (hc ▸ List.mem_cons_self tid pending)
          have hxpend : x ∉ pending := fun hc => hx2 (List.mem_cons_of_mem tid hc)
          refine ⟨?_, ?_, by rw [hlen₁]; exact hx3⟩
          · intro hc
            rcases hsub₁ x hc with rfl | hc
            · exact hxtid rfl
            · exact hx1 hc
          · intro hc
            rcases List.mem_append.mp hc with hc | hc
            · exact hxpend hc
            · rcases hpush₁ with rfl | ⟨v, rfl, hv1, _⟩
              · exact absurd hc (List.not_mem_nil x)
              · rw [List.mem_singleton] at hc
                subst hc
                exact hx1 hv1
        obtain ⟨hc1, hc2, hc3, hc4, hc5⟩ :=
          replayLoop_inv fuel e₁ (pending ++ pushed) (realloc ++ [tid]) stillW e' r
            hInv₁ hpend' hP' hWnd hW' heq
        exact ⟨hc1, hc2, hc3, by rw [hc4, hreg₁], by rw [hc5, hlen₁]⟩
      · rename_i e₁ pushed hstep
        have htid := hP tid (List.mem_cons_self tid pending)
        obtain ⟨hInv₁, hlen₁, hreg₁, hsub₁, hqueue₁, hpush₁, hfail₁⟩ :=
          replayStep_spec hInv htid.1 htid.2 hstep
        obtain ⟨hplaced₁, hpushed₁⟩ := hfail₁ rfl
        subst hpushed₁
        have hPnd' : pending.Nodup := (List.nodup_cons.mp hPnd).2
        have htidnp : tid ∉ pending := (List.nodup_cons.mp hPnd).1
        rw [List.append_nil] at heq
        have hP' : ∀ x ∈ pending, x ∉ placedIds e₁ ∧ x < e₁.heap.length := by
          intro x hx
          rw [hplaced₁, hlen₁]
          exact ⟨(hP x (List.mem_cons_of_mem tid hx)).1,
            (hP x (List.mem_cons_of_mem tid hx)).2⟩
        have hWnd' : (stillW ++ [tid]).Nodup := by
          rw [List.nodup_append]
          refine ⟨hWnd, by simp, ?_⟩
          intro x hx hy
          rw [List.mem_singleton] at hy
          subst hy
          exact (hW x hx).2.1 (List.mem_cons_self x pending)
        have hW' : ∀ x ∈ stillW ++ [tid], x ∉ placedIds e₁ ∧ x ∉ pending ∧
            x < e₁.heap.length := by
          intro x hx
          rw [hplaced₁, hlen₁]
          rcases List.mem_append.mp hx with hx | hx
          · obtain ⟨hx1, hx2, hx3⟩ := hW x hx
            exact ⟨hx1, fun hc => hx2 (List.mem_cons_of_mem tid hc), hx3⟩
          · rw [List.mem_singleton] at hx
            subst hx
            exact ⟨htid.1, htidnp, htid.2⟩
        obtain ⟨hc1, hc2, hc3, hc4, hc5⟩ :=
          replayLoop_inv fuel e₁ pending realloc (stillW ++ [tid]) e' r
            hInv₁ hPnd' hP' hWnd' hW' heq
        exact ⟨hc1, hc2, hc3, by rw [hc4, hreg₁], by rw [hc5, hlen₁]⟩

/-! The full engine invariant and its preservation by every operation. -/

/-- Engine invariant: well formed slots, a duplicate free queue disjoint
from every slot, and all container ids alive on the heap. -/
structure Inv (e : EngineState) : Prop where
  slotInv : SlotInv e
  queue_nodup : e.waitingQueue.Nodup
  queue_disj : ∀ tid ∈ e.waitingQueue, tid ∉ placedIds e
  queue_lt : ∀ tid ∈ e.waitingQueue, tid < e.heap.length
  reg_lt : ∀ tid ∈ e.registered, tid < e.heap.length

theorem inv_empty : Inv emptyEngine := by
  refine ⟨⟨?_, ?_, ?_⟩, ?_, ?_, ?_, ?_⟩ <;> simp [emptyEngine, placedIds]

theorem setDoctorAssoc_mem {x d : Doctor} : ∀ {l : List Doctor},
    x ∈ setDoctorAssoc l d → x = d ∨ x ∈ l
  | [], h => by simpa [setDoctorAssoc] using h
  | y :: ys, h => by
      by_cases hy : y.id == d.id
      · simp only [setDoctorAssoc, if_pos hy, List.mem_cons] at h
        rcases h with rfl | h
        · exact Or.inl rfl
        · exact Or.inr (List.mem_cons_of_mem y h)
      · simp only [setDoctorAssoc, if_neg hy, List.mem_cons] at h
        rcases h with rfl | h
        · exact Or.inr (List.mem_cons_self x ys)
        · rcases setDoctorAssoc_mem h with h | h
          · exact Or.inl h
          · exact Or.inr (List.mem_cons_of_mem y h)

theorem setDoctorAssoc_placed_sublist {d : Doctor} (hd : Doctor.placed d = []) :
    ∀ l : List Doctor,
      List.Sublist ((setDoctorAssoc l d).flatMap Doctor.placed) (l.flatMap Doctor.placed)
  | [] => by simp [setDoctorAssoc, hd]
  | y :: ys => by
      by_cases hy : y.id == d.id
      · simp only [setDoctorAssoc, if_pos hy, List.flatMap_cons, hd, List.nil_append]
        exact List.sublist_append_right _ _
      · simp only [setDoctorAssoc, if_neg hy, List.flatMap_cons]
        exact (setDoctorAssoc_placed_sublist hd ys).append_left _

theorem initSlots_tokens (did : String) (a b : Int) :
    ∀ s ∈ initSlots did a b, SlotOk s ∧ s.tokens = [] := by
  intro s hs
  simp only [initSlots, List.mem_map] at hs
  obtain ⟨h, _, rfl⟩ := hs
  exact ⟨⟨rfl, by simp, by simp, List.nodup_nil⟩, rfl⟩

theorem initSlots_placed (did : String) (a b : Int) :
    Doctor.placed ⟨did, n, sp, a, b, initSlots did a b⟩ = [] := by
  simp only [Doctor.placed]
  rw [List.flatMap_eq_nil_iff]
  intro s hs
  exact (initSlots_tokens did a b s hs).2

theorem inv_addDoctor {e : EngineState} (hInv : Inv e) (did n sp : String) (a b : Int) :
    Inv (e.addDoctor did n sp a b) := by
  have hsub : List.Sublist (placedIds (e.addDoctor did n sp a b)) (placedIds e) :=
    setDoctorAssoc_placed_sublist (initSlots_placed did a b) e.doctors
  refine ⟨⟨?_, hInv.slotInv.placed_nodup.sublist hsub,
      fun x hx => hInv.slotInv.placed_lt x (hsub.mem hx)⟩,
    hInv.queue_nodup,
    fun x hx hc => hInv.queue_disj x hx (hsub.mem hc),
    hInv.queue_lt, hInv.reg_lt⟩
  intro d' hd' s' hs'
  rcases setDoctorAssoc_mem hd' with rfl | hd'
  · exact (initSlots_tokens did a b s' hs').1
  · exact hInv.slotInv.slots_ok d' hd' s' hs'

/-- Extending the heap with a fresh token preserves the invariant shape. -/
theorem inv_extend {e : EngineState} (hInv : Inv e) (tok : Token) :
    Inv { e with heap := e.heap ++ [tok] } := by
  refine ⟨⟨hInv.slotInv.slots_ok, hInv.slotInv.placed_nodup, ?_⟩,
    hInv.queue_nodup, hInv.queue_disj, ?_, ?_⟩
  · intro x hx
    have := hInv.slotInv.placed_lt x hx
    simp only [List.length_append, List.length_singleton]
    omega
  · intro x hx
    have := hInv.queue_lt x hx
    simp only [List.length_append, List.length_singleton]
    omega
  · intro x hx
    have := hInv.reg_lt x hx
    simp only [List.length_append, List.length_singleton]
    omega

/-- The fresh id is outside every container of the extended state. -/
theorem fresh_not_placed {e : EngineState} (hInv : Inv e) :
    e.heap.length ∉ placedIds e ∧ e.heap.length ∉ e.waitingQueue := by
  constructor
  · intro hc
    exact absurd (hInv.slotInv.placed_lt _ hc) (lt_irrefl _)
  · intro hc
    exact absurd (hInv.queue_lt _ hc) (lt_irrefl _)

/-- Invariant after a successful placement of a fresh token followed by its
registration. -/
theorem inv_place_register {e₀ e₁ : EngineState} {tid : Nat}
    (hInv₀ : Inv e₀) (hfresh : tid ∉ placedIds e₀) (hqfresh : tid ∉ e₀.waitingQueue)
    (hlt : tid < e₀.heap.length) {h : Int} {ok : Bool}
    (htry : tryAllocateToSlot e₀ tid h = some (e₁, ok)) :
    Inv { e₁ with registered := e₁.registered ++ [tid] } := by
  obtain ⟨hInv₁, hheap₁, hreg₁, hsub₁, hcase₁⟩ :=
    tryAlloc_spec hInv₀.slotInv hfresh hlt htry
  have hqfacts : e₁.waitingQueue.Nodup ∧
      (∀ x ∈ e₁.waitingQueue, x ∉ placedIds e₁ ∧ x < e₁.heap.length) := by
    have hold : ∀ x ∈ e₀.waitingQueue, x ∉ placedIds e₁ ∧ x < e₁.heap.length := by
      intro x hx
      refine ⟨?_, by rw [hheap₁]; exact hInv₀.queue_lt x hx⟩
      intro hc
      rcases hsub₁ x hc with rfl | hc
      · exact hqfresh hx
      · exact hInv₀.queue_disj x hx hc
    rcases hcase₁ with ⟨_, rfl⟩ | ⟨_, hq⟩
    · exact ⟨hInv₀.queue_nodup, hold⟩
    · rcases hq with hq | ⟨v, hv1, hv2, _, hv4, hq⟩
      · rw [hq]
        exact ⟨hInv₀.queue_nodup, hold⟩
      · rw [hq]
        constructor
        · rw [List.nodup_append]
          refine ⟨hInv₀.queue_nodup, by simp, ?_⟩
          intro x hx hy
          rw [List.mem_singleton] at hy
          subst hy
          exact hInv₀.queue_disj x hx hv1
        · intro x hx
          rcases List.mem_append.mp hx with hx | hx
          · exact hold x hx
          · rw [List.mem_singleton] at hx
            subst hx
            exact ⟨hv2, by rw [hheap₁]; exact hv4⟩
  refine ⟨⟨hInv₁.slots_ok, hInv₁.placed_nodup, hInv₁.placed_lt⟩,
    hqfacts.1, fun x hx => (hqfacts.2 x hx).1, fun x hx => (hqfacts.2 x hx).2, ?_⟩
  intro x hx
  rcases List.mem_append.mp hx with hx | hx
  · rw [hreg₁] at hx
    rw [hheap₁]
    exact hInv₀.reg_lt x hx
  · rw [List.mem_singleton] at hx
    subst hx
    rw [hheap₁]
    exact hlt

/-- Invariant after pushing a fresh unplaced token onto the queue. -/
theorem inv_push_queue {e₀ : EngineState} {tid : Nat}
    (hInv₀ : Inv e₀) (hfresh : tid ∉ placedIds e₀) (hqfresh : tid ∉ e₀.waitingQueue)
    (hlt : tid < e₀.heap.length) :
    Inv { e₀ with waitingQueue := e₀.waitingQueue ++ [tid] } := by
  refine ⟨⟨hInv₀.slotInv.slots_ok, hInv₀.slotInv.placed_nodup, hInv₀.slotInv.placed_lt⟩,
    ?_, ?_, ?_, hInv₀.reg_lt⟩
  · rw [List.nodup_append]
    refine ⟨hInv₀.queue_nodup, by simp, ?_⟩
    intro x hx hy
    rw [List.mem_singleton] at hy
    subst hy
    exact hqfresh hx
  · intro x hx
    rcases List.mem_append.mp hx with hx | hx
    · exact hInv₀.queue_disj x hx
    · rw [List.mem_singleton] at hx
      subst hx
      exact hfresh
  · intro x hx
    rcases List.mem_append.mp hx with hx | hx
    · exact hInv₀.queue_lt x hx
    · rw [List.mem_singleton] at hx
      subst hx
      exact hlt

theorem inv_setTok {e : EngineState} (hInv : Inv e) (tid : Nat) (f : Token → Token) :
    Inv (e.setTok tid f) := by
  refine ⟨⟨hInv.slotInv.slots_ok, hInv.slotInv.placed_nodup, ?_⟩,
    hInv.queue_nodup, hInv.queue_disj, ?_, ?_⟩
  · intro x hx
    rw [setTok_heap_length]
    exact hInv.slotInv.placed_lt x hx
  · intro x hx
    rw [setTok_heap_length]
    exact hInv.queue_lt x hx
  · intro x hx
    rw [setTok_heap_length]
    exact hInv.reg_lt x hx

theorem inv_allocateToken {e : EngineState} (hInv : Inv e) (pid did : String) (t : Int)
    (src : String) : Inv (allocateToken e pid did t src).1 := by
  unfold allocateToken
  split
  · exact hInv
  · have hInv₀ : Inv { e with heap := e.heap ++
        [⟨pid, did, t, src, sourcePriority src, TStatus.allocated⟩] } :=
      inv_extend hInv _
    have hfresh₀ := fresh_not_placed hInv
    have hlt₀ : e.heap.length < e.heap.length + 1 := Nat.lt_succ_self _
    have hlen : ({ e with heap := e.heap ++
        [⟨pid, did, t, src, sourcePriority src, TStatus.allocated⟩] } :
        EngineState).heap.length = e.heap.length + 1 := by simp
    simp only []
    split
    · exact hInv₀
    · rename_i e₁ htry
      exact inv_place_register hInv₀ hfresh₀.1 hfresh₀.2 (by rw [hlen]; exact hlt₀) htry
    · rename_i e₁ htry
      obtain ⟨hInv₁s, hheap₁, hreg₁, hsub₁, hcase₁⟩ :=
        tryAlloc_spec hInv₀.slotInv hfresh₀.1 (by rw [hlen]; exact hlt₀) htry
      rcases hcase₁ with ⟨_, rfl⟩ | ⟨hcon, _⟩
      · split
        · rename_i alt halt
          split
          · exact inv_setTok hInv₀ _ _
          · rename_i e₃ htry₂
            exact inv_place_register (inv_setTok hInv₀ _ _) hfresh₀.1 hfresh₀.2
              (by rw [setTok_heap_length, hlen]; exact hlt₀) htry₂
          · rename_i e₃ htry₂
            obtain ⟨hInv₃s, hheap₃, hreg₃, hsub₃, hcase₃⟩ :=
              tryAlloc_spec (inv_setTok hInv₀ _ _).slotInv hfresh₀.1
                (by rw [setTok_heap_length, hlen]; exact hlt₀) htry₂
            rcases hcase₃ with ⟨_, rfl⟩ | ⟨hcon, _⟩
            · exact inv_push_queue (inv_setTok hInv₀ _ _) hfresh₀.1 hfresh₀.2
                (by rw [setTok_heap_length, hlen]; exact hlt₀)
            · exact absurd hcon (by simp)
        · exact inv_push_queue hInv₀ hfresh₀.1 hfresh₀.2 (by rw [hlen]; exact hlt₀)
      · exact absurd hcon (by simp)

theorem inv_processWaitingQueue {e e' : EngineState} {r : List Nat} (hInv : Inv e)
    (heq : processWaitingQueue e = some (e', r)) : Inv e' := by
  unfold processWaitingQueue at heq
  obtain ⟨hc1, hc2, hc3, hc4, hc5⟩ := replayLoop_inv (replayFuel e) e e.waitingQueue [] [] e' r
    hInv.slotInv hInv.queue_nodup
    (fun x hx => ⟨hInv.queue_disj x hx, hInv.queue_lt x hx⟩)
    List.nodup_nil (by simp) heq
  refine ⟨hc1, hc2, fun x hx => (hc3 x hx).1, fun x hx => (hc3 x hx).2, ?_⟩
  intro x hx
  rw [hc4] at hx
  rw [hc5]
  exact hInv.reg_lt x hx

theorem inv_cancelToken {e e' : EngineState} {tid : Nat} {r : OpResult} (hInv : Inv e)
    (heq : cancelToken e tid = some (e', r)) : Inv e' := by
  unfold cancelToken at heq
  split at heq
  · rw [Option.some_inj, Prod.mk.injEq] at heq
    rw [← heq.1]
    exact hInv
  rename_i token htok
  split at heq
  · exact absurd heq (by simp)
  rename_i doctor hdoc
  split at heq
  · rename_i hslot
    rename_i slot2
    have hInv₁ : Inv (e.updateDoctor token.doctorId
        (fun d => d.updateSlot token.slotTime (fun s => (s.removeToken tid).1))) := by
      obtain ⟨A, B, hAB, hupd⟩ := slot_surgery hdoc hslot
      have hplsub : List.Sublist
          (placedIds (e.updateDoctor token.doctorId
            (fun d => d.updateSlot token.slotTime (fun s => (s.removeToken tid).1))))
          (placedIds e) := by
        rw [(hupd _).1, hAB]
        refine List.Sublist.append ((List.Sublist.refl A).append ?_) (List.Sublist.refl B)
        by_cases hmem : tid ∈ slot2.tokens
        · simp only [Slot.removeToken, if_pos hmem]
          exact removeFirst_sublist tid slot2.tokens
        · simp only [Slot.removeToken, if_neg hmem]
          exact List.Sublist.refl _
      refine ⟨⟨?_, hInv.slotInv.placed_nodup.sublist hplsub,
          fun x hx => hInv.slotInv.placed_lt x (hplsub.mem hx)⟩,
        hInv.queue_nodup,
        fun x hx hc => hInv.queue_disj x hx (hplsub.mem hc),
        hInv.queue_lt, hInv.reg_lt⟩
      intro d' hd' s' hs'
      rcases (hupd _).2 d' hd' s' hs' with ⟨d0, hd0, hs0⟩ | rfl
      · exact hInv.slotInv.slots_ok d0 hd0 s' hs0
      · exact removeToken_ok (hInv.slotInv.slots_ok doctor
          (List.mem_of_find?_eq_some hdoc) slot2 (List.mem_of_find?_eq_some hslot))
    simp only [] at heq
    split at heq
    · exact absurd heq (by simp)
    · rename_i e₃ r₃ hproc
      rw [Option.some_inj, Prod.mk.injEq] at heq
      rw [← heq.1]
      exact inv_processWaitingQueue (inv_setTok hInv₁ tid _) hproc
  · rename_i hslot
    simp only [] at heq
    split at heq
    · exact absurd heq (by simp)
    · rename_i e₃ r₃ hproc
      rw [Option.some_inj, Prod.mk.injEq] at heq
      rw [← heq.1]
      exact inv_processWaitingQueue (inv_setTok hInv tid _) hproc

theorem inv_insertEmergencyToken {e e' : EngineState} {pid did : String} {t : Int}
    {r : OpResult} (hInv : Inv e)
    (heq : insertEmergencyToken e pid did t = some (e', r)) : Inv e' := by
  unfold insertEmergencyToken at heq
  have hInv₀ : Inv { e with heap := e.heap ++
      [⟨pid, did, t, "emergency", 10, TStatus.allocated⟩] } := inv_extend hInv _
  have hfresh₀ := fresh_not_placed hInv
  have hlen : ({ e with heap := e.heap ++
      [⟨pid, did, t, "emergency", 10, TStatus.allocated⟩] } :
      EngineState).heap.length = e.heap.length + 1 := by simp
  simp only [] at heq
  split at heq
  · exact absurd heq (by simp)
  · rename_i e₁ htry
    split at heq
    · exact absurd heq (by simp)
    · rename_i e₃ r₃ hproc
      rw [Option.some_inj, Prod.mk.injEq] at heq
      rw [← heq.1]
      exact inv_processWaitingQueue
        (inv_place_register hInv₀ hfresh₀.1 hfresh₀.2
          (by rw [hlen]; exact Nat.lt_succ_self _) htry) hproc
  · rename_i e₁ htry
    obtain ⟨hInv₁s, hheap₁, hreg₁, hsub₁, hcase₁⟩ :=
      tryAlloc_spec hInv₀.slotInv hfresh₀.1 (by rw [hlen]; exact Nat.lt_succ_self _) htry
    rcases hcase₁ with ⟨_, rfl⟩ | ⟨hcon, _⟩
    · rw [Option.some_inj, Prod.mk.injEq] at heq
      rw [← heq.1]
      exact hInv₀
    · exact absurd hcon (by simp)

/-! Reachability through the public operations. -/

/-- States the engine can reach from the empty state through the public
operations (addDoctor, allocateToken, insertEmergencyToken, cancelToken,
processWaitingQueue); fallible operations contribute a state exactly when
they return an outcome rather than raising. -/
inductive Reachable : EngineState → Prop where
  | init : Reachable emptyEngine
  | addDoctor {e : EngineState} (did n sp : String) (a b : Int) :
      Reachable e → Reachable (e.addDoctor did n sp a b)
  | allocate {e : EngineState} (pid did : String) (t : Int) (src : String) :
      Reachable e → Reachable (allocateToken e pid did t src).1
  | cancel {e e' : EngineState} {tid : Nat} {r : OpResult} :
      Reachable e → cancelToken e tid = some (e', r) → Reachable e'
  | emergency {e e' : EngineState} {pid did : String} {t : Int} {r : OpResult} :
      Reachable e → insertEmergencyToken e pid did t = some (e', r) → Reachable e'
  | replay {e e' : EngineState} {r : List Nat} :
      Reachable e → processWaitingQueue e = some (e', r) → Reachable e'

theorem inv_of_reachable {e : EngineState} (h : Reachable e) : Inv e := by
  induction h with
  | init => exact inv_empty
  | addDoctor did n sp a b _ ih => exact inv_addDoctor ih did n sp a b
  | allocate pid did t src _ ih => exact inv_allocateToken ih pid did t src
  | cancel _ heq ih => exact inv_cancelToken ih heq
  | emergency _ heq ih => exact inv_insertEmergencyToken ih heq
  | replay _ heq ih => exact inv_processWaitingQueue ih heq

/-! Hypothesis free facts about one replay step and the whole loop, used for
the claims about cancellation and queue order. -/

theorem removeFirst_of_not_mem {tid : Nat} : ∀ {l : List Nat}, tid ∉ l →
    removeFirst tid l = l
  | [], _ => rfl
  | x :: xs, h => by
      have hx : x ≠ tid := fun hc => h (hc ▸ List.mem_cons_self x xs)
      simp only [removeFirst, if_neg hx]
      rw [removeFirst_of_not_mem (fun hc => h (List.mem_cons_of_mem x hc))]

theorem not_mem_removeFirst {tid : Nat} {l : List Nat} (hc : l.count tid ≤ 1) :
    tid ∉ removeFirst tid l := by
  by_cases hm : tid ∈ l
  · obtain ⟨l₁, l₂, hdec, hni, hrm⟩ := removeFirst_decomp hm
    rw [hrm]
    have : l.count tid = l₁.count tid + (l₂.count tid + 1) := by
      rw [hdec]
      simp [List.count_append, List.count_cons]
    have h₂ : l₂.count tid = 0 := by omega
    intro hmem
    rcases List.mem_append.mp hmem with hmem | hmem
    · exact hni hmem
    · exact (List.count_eq_zero.mp h₂) hmem
  · rw [removeFirst_of_not_mem hm]
    exact hm

theorem replayStep_sub {e : EngineState} {u : Nat} {e₁ : EngineState} {ok : Bool}
    {pushed : List Nat} (heq : replayStep e u = some (e₁, ok, pushed)) :
    (∀ x ∈ placedIds e₁, x = u ∨ x ∈ placedIds e) ∧
    (∀ x ∈ pushed, x ∈ placedIds e) ∧
    (∀ y, y ≠ u → e₁.heapGet y = e.heapGet y) := by
  unfold replayStep at heq
  split at heq
  · simp only [Option.some_inj, Prod.mk.injEq] at heq
    obtain ⟨h1, _, h3⟩ := heq
    subst h1; subst h3
    exact ⟨fun x hx => Or.inr hx, by simp, fun y _ => rfl⟩
  split at heq
  · exact absurd heq (by simp)
  · simp only [Option.some_inj, Prod.mk.injEq] at heq
    obtain ⟨h1, _, h3⟩ := heq
    subst h1; subst h3
    exact ⟨fun x hx => Or.inr hx, by simp, fun y _ => rfl⟩
  rename_i availableSlot hfind
  split at heq
  · exact absurd heq (by simp)
  rename_i e₂ ok₂ htry
  simp only [Option.some_inj, Prod.mk.injEq] at heq
  obtain ⟨h1, _, h3⟩ := heq
  subst h1; subst h3
  refine ⟨fun x hx => tryAlloc_placed_sub htry x hx, ?_, ?_⟩
  · obtain ⟨extra, hq, hcases⟩ := tryAlloc_queue htry
    rw [setTok_queue] at hq
    rw [hq, List.drop_left]
    rcases hcases with rfl | ⟨v, rfl, hv⟩
    · simp
    · intro x hx
      rw [List.mem_singleton] at hx
      subst hx
      exact hv
  · intro y hy
    have hh := tryAlloc_heap htry
    have hsg := setTok_heapGet e u (fun t => { t with slotTime := availableSlot }) y
    rw [if_neg hy] at hsg
    have hstep1 : e₂.heapGet y =
        (e.setTok u (fun t => { t with slotTime := availableSlot })).heapGet y := by
      unfold EngineState.heapGet
      rw [hh]
    rw [hstep1, hsg]

theorem replayLoop_avoid : ∀ (fuel : Nat) (e : EngineState) (pending realloc stillW : List Nat)
    (e' : EngineState) (r : List Nat) (tid : Nat),
    tid ∉ placedIds e → tid ∉ pending → tid ∉ stillW →
    replayLoop fuel e pending realloc stillW = some (e', r) →
    tid ∉ placedIds e' ∧ tid ∉ e'.waitingQueue ∧ e'.heapGet tid = e.heapGet tid
  | 0, _, _, _, _, _, _, _, _, _, _, heq => by simp [replayLoop] at heq
  | fuel + 1, e, [], realloc, stillW, e', r, tid, hp, _, hw, heq => by
      simp only [replayLoop, Option.some_inj, Prod.mk.injEq] at heq
      obtain ⟨h1, _⟩ := heq
      subst h1
      exact ⟨hp, hw, rfl⟩
  | fuel + 1, e, u :: pending, realloc, stillW, e', r, tid, hp, hpend, hw, heq => by
      have htidu : tid ≠ u := fun hc => hpend (hc ▸ List.mem_cons_self u pending)
      have htidp : tid ∉ pending := fun hc => hpend (List.mem_cons_of_mem u hc)
      simp only [replayLoop] at heq
      split at heq
      · exact absurd heq (by simp)
      · rename_i e₁ pushed hstep
        obtain ⟨hsub, hpush, hget⟩ := replayStep_sub hstep
        have hp₁ : tid ∉ placedIds e₁ := by
          intro hc
          rcases hsub tid hc with rfl | hc
          · exact htidu rfl
          · exact hp hc
        have hpend₁ : tid ∉ pending ++ pushed := by
          intro hc
          rcases List.mem_append.mp hc with hc | hc
          · exact htidp hc
          · exact hp (hpush tid hc)
        obtain ⟨hc1, hc2, hc3⟩ := replayLoop_avoid fuel e₁ (pending ++ pushed)
          (realloc ++ [u]) stillW e' r tid hp₁ hpend₁ hw heq
        exact ⟨hc1, hc2, by rw [hc3, hget tid htidu]⟩
      · rename_i e₁ pushed hstep
        obtain ⟨hsub, hpush, hget⟩ := replayStep_sub hstep
        have hp₁ : tid ∉ placedIds e₁ := by
          intro hc
          rcases hsub tid hc with rfl | hc
          · exact htidu rfl
          · exact hp hc
        have hpend₁ : tid ∉ pending ++ pushed := by
          intro hc
          rcases List.mem_append.mp hc with hc | hc
          · exact htidp hc
          · exact hp (hpush tid hc)
        have hw₁ : tid ∉ stillW ++ [u] := by
          intro hc
          rcases List.mem_append.mp hc with hc | hc
          · exact hw hc
          · rw [List.mem_singleton] at hc
            exact htidu hc
        obtain ⟨hc1, hc2, hc3⟩ := replayLoop_avoid fuel e₁ (pending ++ pushed)
          realloc (stillW ++ [u]) e' r tid hp₁ hpend₁ hw₁ heq
        exact ⟨hc1, hc2, by rw [hc3, hget tid htidu]⟩

/-- After the loop, the waiting queue is the incoming stillWaiting prefix, a
subsequence of the visited pending list in preserved order, and then the
failures among ids appended during the pass. -/
theorem replayLoop_order : ∀ (fuel : Nat) (e : EngineState) (pending realloc stillW : List Nat)
    (e' : EngineState) (r : List Nat),
    replayLoop fuel e pending realloc stillW = some (e', r) →
    ∃ l₁ l₂, e'.waitingQueue = stillW ++ l₁ ++ l₂ ∧ List.Sublist l₁ pending
  | 0, _, _, _, _, _, _, heq => by simp [replayLoop] at heq
  | fuel + 1, e, [], realloc, stillW, e', r, heq => by
      simp only [replayLoop, Option.some_inj, Prod.mk.injEq] at heq
      obtain ⟨h1, _⟩ := heq
      subst h1
      exact ⟨[], [], by simp, List.nil_sublist []⟩
  | fuel + 1, e, tid :: pending, realloc, stillW, e', r, heq => by
      simp only [replayLoop] at heq
      split at heq
      · exact absurd heq (by simp)
      · rename_i e₁ pushed hstep
        obtain ⟨l₁, l₂, hq, hsub⟩ := replayLoop_order fuel e₁ (pending ++ pushed)
          (realloc ++ [tid]) stillW e' r heq
        obtain ⟨g₁, g₂, rfl, hg₁, _⟩ := List.sublist_append_iff.mp hsub
        refine ⟨g₁, g₂ ++ l₂, ?_, hg₁.cons tid⟩
        rw [hq]
        simp [List.append_assoc]
      · rename_i e₁ pushed hstep
        obtain ⟨l₁, l₂, hq, hsub⟩ := replayLoop_order fuel e₁ (pending ++ pushed)
          realloc (stillW ++ [tid]) e' r heq
        obtain ⟨g₁, g₂, rfl, hg₁, _⟩ := List.sublist_append_iff.mp hsub
        refine ⟨tid :: g₁, g₂ ++ l₂, ?_, hg₁.cons₂ tid⟩
        rw [hq]
        simp [List.append_assoc]

/-! Concrete scenarios, built from the empty engine through the public
operations only. Token ids are allocated sequentially from 0. -/

/-- Run n identical allocation requests in sequence. -/
def allocN (e : EngineState) (pid did : String) (t : Int) (src : String) : Nat → EngineState
  | 0 => e
  | n + 1 => (allocateToken (allocN e pid did t src n) pid did t src).1

theorem reachable_allocN {e : EngineState} (h : Reachable e) (pid did : String) (t : Int)
    (src : String) : ∀ n, Reachable (allocN e pid did t src n)
  | 0 => h
  | n + 1 => Reachable.allocate pid did t src (reachable_allocN h pid did t src n)

/-- State of the engine after a cancellation (the operation never raises on
the states used below). -/
def cancelState (e : EngineState) (tid : Nat) : EngineState :=
  ((cancelToken e tid).getD (e, ⟨false, none, ""⟩)).1

/-- State and reallocated list of a replay pass. -/
def replayState (e : EngineState) : EngineState := ((processWaitingQueue e).getD (e, [])).1
def replayList (e : EngineState) : List Nat := ((processWaitingQueue e).getD (e, [])).2

/-- Does any slot of any doctor currently hold the id? -/
def inSomeSlot (e : EngineState) (tid : Nat) : Bool :=
  e.doctors.any (fun d => d.slots.any (fun s => s.tokens.contains tid))

/- Scenario for the replay cascade claims. One doctor with slots at 9, 10
and 11. Slot 9 holds nine priority 10 tokens (ids 0..8) and one priority 8
token (id 9); slot 10 nine priority 10 (ids 10..18) and one priority 4
(id 19); slot 11 nine priority 10 (ids 20..28) and one priority 2 (id 29).
A final emergency allocation (id 30) at 9 evicts id 9 into the queue. -/
def e1a : EngineState := emptyEngine.addDoctor "D1" "N" "S" 9 12
def e1b : EngineState := allocN e1a "P" "D1" 9 "emergency" 9
def e1c : EngineState := (allocateToken e1b "PT" "D1" 9 "priority").1
def e1d : EngineState := allocN e1c "P" "D1" 10 "emergency" 9
def e1e : EngineState := (allocateToken e1d "PO" "D1" 10 "online").1
def e1f : EngineState := allocN e1e "P" "D1" 11 "emergency" 9
def e1g : EngineState := (allocateToken e1f "PW" "D1" 11 "walkin").1
def C1pre : EngineState := (allocateToken e1g "PE" "D1" 9 "emergency").1

theorem reachable_C1pre : Reachable C1pre :=
  Reachable.allocate "PE" "D1" 9 "emergency"
    (Reachable.allocate "PW" "D1" 11 "walkin"
      (reachable_allocN
        (Reachable.allocate "PO" "D1" 10 "online"
          (reachable_allocN
            (Reachable.allocate "PT" "D1" 9 "priority"
              (reachable_allocN
                (Reachable.addDoctor "D1" "N" "S" 9 12 Reachable.init)
                "P" "D1" 9 "emergency" 9))
            "P" "D1" 10 "emergency" 9))
        "P" "D1" 11 "emergency" 9))

/- Scenario for the cancellation claims. One doctor with one slot at 9,
holding a walkin token (id 0), nine emergencies (ids 1..9); a priority
token (id 10) then bumps id 0 into the waiting queue. -/
def e2a : EngineState := emptyEngine.addDoctor "D1" "N" "S" 9 10
def e2b : EngineState := (allocateToken e2a "W" "D1" 9 "walkin").1
def e2c : EngineState := allocN e2b "P" "D1" 9 "emergency" 9
def e2d : EngineState := (allocateToken e2c "PP" "D1" 9 "priority").1
def C2mid : EngineState := cancelState e2d 0
def C2fin : EngineState := cancelState C2mid 1

/- Scenario for the queue order claim. Ids 0..9 fill the D1 slot at 9 with
emergencies, ids 10..19 the D2 slot; id 20 (priority 4, D1), id 21
(priority 2, D2) and id 22 (priority 10, D1) queue up in that order.
Re-registering D1 wipes its slot table; id 23 (walkin) and ids 24..32
(emergencies) refill the fresh D1 slot. -/
def e9a : EngineState := (emptyEngine.addDoctor "D1" "N" "S" 9 10).addDoctor "D2" "N" "S" 9 10
def e9b : EngineState := allocN e9a "P" "D1" 9 "emergency" 10
def e9c : EngineState := allocN e9b "P" "D2" 9 "emergency" 10
def e9d : EngineState := (allocateToken e9c "A" "D1" 9 "online").1
def e9e : EngineState := (allocateToken e9d "C" "D2" 9 "walkin").1
def e9f : EngineState := (allocateToken e9e "B" "D1" 9 "emergency").1
def e9g : EngineState := e9f.addDoctor "D1" "N" "S" 9 10
def e9h : EngineState := (allocateToken e9g "x" "D1" 9 "walkin").1
def C9pre : EngineState := allocN e9h "P" "D1" 9 "emergency" 9

/- Small states for witnesses. -/
def e4a : EngineState := emptyEngine.addDoctor "D1" "N" "S" 9 10
def d4 : Doctor := ⟨"D1", "N", "S", 9, 10, initSlots "D1" 9 10⟩
def e4post : EngineState :=
  ((insertEmergencyToken e4a "P1" "D1" 20).getD (emptyEngine, ⟨false, none, ""⟩)).1
def e7a : EngineState := emptyEngine.addDoctor "D1" "N" "S" 9 12
def d7 : Doctor := ⟨"D1", "N", "S", 9, 12, initSlots "D1" 9 12⟩
def e10a : EngineState := emptyEngine.addDoctor "D0" "N" "S" 9 9
def e10post : EngineState := (allocateToken e10a "P" "D0" 9 "walkin").1
def eW6 : EngineState := (allocateToken (emptyEngine.addDoctor "D1" "N" "S" 9 10) "P" "D1" 9 "walkin").1
def eW2 : EngineState := (allocateToken (emptyEngine.addDoctor "D1" "N" "S" 9 10) "P" "D1" 9 "walkin").1

/- Small direct state for the preemption scan witness: three tokens with
priorities 5, 3, 3 occupying one full slot. -/
def tC5a : Token := ⟨"p1", "d", 9, "walkin", 5, .allocated⟩
def tC5b : Token := ⟨"p2", "d", 9, "walkin", 3, .allocated⟩
def tC5c : Token := ⟨"p3", "d", 9, "walkin", 3, .allocated⟩
def eC5 : EngineState := ⟨[], [tC5a, tC5b, tC5c], [], []⟩
def sC5 : Slot := ⟨"d", 9, 10, 3, [0, 1, 2], 0⟩

/-! Claim theorems. -/

/-- C1 counterexample: the claim states that a token evicted by preemption
during a replay pass is never considered for placement within the same
call. In the reachable state C1pre the queue holds only id 9; the pass
places id 9 into slot 10 by evicting id 19, and then places id 19 as well
(into slot 11), inside the same call: the reallocated list is [9, 19]
although 19 was not queued when the call began. The for..of loop of
processWaitingQueue iterates the live array, so ids pushed during the pass
are visited by the same pass. -/
theorem C1_counterexample :
    C1pre.waitingQueue = [9] ∧
    (processWaitingQueue C1pre).map Prod.snd = some [9, 19] ∧
    (19 : Nat) ∉ C1pre.waitingQueue :=
  ⟨rfl, rfl, by decide⟩

/-- C1 amended: replayQueue iterates the waiting queue array live, so a
token evicted by preemption and appended during the pass is reached by the
same pass and can be placed within the same call — cascades can resolve in
one invocation. Witnessed by a state reachable through the public
operations whose replay pass places a token that was not queued when the
call began. -/
theorem C1_theorem :
    ∃ e : EngineState, ∃ e' : EngineState, ∃ realloc : List Nat, ∃ v : Nat,
      Reachable e ∧ processWaitingQueue e = some (e', realloc) ∧
      v ∈ realloc ∧ v ∉ e.waitingQueue :=
  ⟨C1pre, replayState C1pre, [9, 19], 19, reachable_C1pre, rfl, by decide, by decide⟩

/-- C3 counterexample: the claim states that the utilization division is
explicitly guarded so that the reported value is never NaN. With zero
providers registered, getSystemStats reports total capacity 0 and the
division 0/0 is not guarded: utilizationRate is `none`, which models the
JS value NaN (the source then renders the string "NaN%"). -/
theorem C3_counterexample :
    (getSystemStats emptyEngine).totalCapacity = 0 ∧
    (getSystemStats emptyEngine).utilizationRate = none :=
  ⟨rfl, rfl⟩

/-- C3 amended: when no providers are registered, systemStats returns a
result (it does not crash) with total capacity 0, but the utilization
division is unguarded and yields the non finite JS value NaN, modelled by
`none`. -/
theorem C3_theorem (e : EngineState) (h : e.doctors = []) :
    (getSystemStats e).totalCapacity = 0 ∧ (getSystemStats e).utilizationRate = none := by
  simp [getSystemStats, h, jsDiv]

/-- Witness for C3 at the empty engine. -/
theorem C3_witness :
    (getSystemStats emptyEngine).totalCapacity = 0 ∧
    (getSystemStats emptyEngine).utilizationRate = none :=
  C3_theorem emptyEngine rfl

/-- C6: in every state reachable through the public operations, every slot
of every doctor has the fixed maximum capacity 10, at most 10 occupants,
a stored availableCapacity equal to maximum capacity minus occupant count,
and no duplicate occupant ids. -/
theorem C6_theorem (e : EngineState) (h : Reachable e) :
    ∀ d ∈ e.doctors, ∀ s ∈ d.slots,
      s.maxCapacity = 10 ∧ s.tokens.length ≤ s.maxCapacity ∧
      s.availableCapacity = (s.maxCapacity : Int) - (s.tokens.length : Int) ∧
      s.tokens.Nodup :=
  (inv_of_reachable h).slotInv.slots_ok

/-- The doctor and slot of the small reachable state eW6 after its single
walkin placement. -/
def dW6 : Doctor := ⟨"D1", "N", "S", 9, 10, [⟨"D1", 9, 10, 10, [0], 9⟩]⟩
def sW6 : Slot := ⟨"D1", 9, 10, 10, [0], 9⟩

/-- Witness for C6 on a small reachable state with one placed token. -/
theorem C6_witness :
    dW6 ∈ eW6.doctors ∧ sW6 ∈ dW6.slots ∧
    sW6.maxCapacity = 10 ∧ sW6.tokens.length ≤ sW6.maxCapacity ∧
    sW6.availableCapacity = (sW6.maxCapacity : Int) - (sW6.tokens.length : Int) ∧
    sW6.tokens.Nodup :=
  ⟨by decide, by decide,
   C6_theorem eW6
     (Reachable.allocate "P" "D1" 9 "walkin"
       (Reachable.addDoctor "D1" "N" "S" 9 10 Reachable.init))
     dW6 (by decide) sW6 (by decide)⟩

/-- C9 counterexample: the claim states that tokens failing to be placed in
a replay pass retain their pre replay relative order. In the reachable
state C9pre the queue is [20, 21, 22]; during the pass id 20 is placed,
then evicted again by id 22 and re appended at the tail, and the final
queue is [21, 23, 20]: the pre replay members 20 and 21 end up in the
opposite relative order. -/
theorem C9_counterexample :
    C9pre.waitingQueue = [20, 21, 22] ∧
    (processWaitingQueue C9pre).map (fun p => p.1.waitingQueue) = some [21, 23, 20] :=
  ⟨rfl, rfl⟩

/-- C9 amended: the queue is never re sorted — a preempted token is
appended at the tail of the queue at the moment it is bumped — and the
queue a replay pass leaves behind consists of a subsequence of the pre
replay queue in preserved relative order followed by tokens appended during
the pass. A pre replay token that is placed and evicted again within the
same pass re enters through that appended tail section, so relative order
among all surviving pre replay tokens is not always preserved. -/
theorem C9_theorem :
    (∀ (e : EngineState) (tid : Nat) (h : Int) (e' : EngineState) (ok : Bool),
      tryAllocateToSlot e tid h = some (e', ok) →
      e'.waitingQueue = e.waitingQueue ∨
        ∃ v, v ∈ placedIds e ∧ e'.waitingQueue = e.waitingQueue ++ [v]) ∧
    (∀ (e e' : EngineState) (r : List Nat), processWaitingQueue e = some (e', r) →
      ∃ l₁ l₂, e'.waitingQueue = l₁ ++ l₂ ∧ List.Sublist l₁ e.waitingQueue) := by
  constructor
  · intro e tid h e' ok heq
    obtain ⟨extra, hq, hcases⟩ := tryAlloc_queue heq
    rcases hcases with rfl | ⟨v, rfl, hv⟩
    · exact Or.inl (by simpa using hq)
    · exact Or.inr ⟨v, hv, hq⟩
  · intro e e' r heq
    unfold processWaitingQueue at heq
    obtain ⟨l₁, l₂, hq, hsub⟩ := replayLoop_order (replayFuel e) e e.waitingQueue [] [] e' r heq
    exact ⟨l₁, l₂, by simpa using hq, hsub⟩

/-- Witness for C9: the bump conjunct applied to a placement attempt at a
missing slot (queue unchanged), and the order conjunct applied to the
replay pass of C9pre. -/
theorem C9_witness :
    ((e2c).waitingQueue = e2c.waitingQueue ∨
      ∃ v, v ∈ placedIds e2c ∧ e2c.waitingQueue = e2c.waitingQueue ++ [v]) ∧
    ∃ l₁ l₂, (replayState C9pre).waitingQueue = l₁ ++ l₂ ∧
      List.Sublist l₁ C9pre.waitingQueue :=
  ⟨C9_theorem.1 e2c 0 20 e2c false rfl,
   C9_theorem.2 C9pre (replayState C9pre) (replayList C9pre) rfl⟩

/-- C5: the preemption scan of tryBumpLowerPriorityToken selects exactly
the occupant with the lowest priority strictly below the incoming one,
breaking ties by first occurrence in scan order: the selected occupant
resolves strictly below the incoming priority, every earlier occupant
resolves strictly above it and every later occupant at or above it; the
scan fails exactly when every occupant resolves at or above the incoming
priority (so an occupant of equal or greater priority is never evicted);
and on success the bump evicts the selected occupant to the queue tail and
admits the incoming token. -/
theorem C5_theorem (e : EngineState) (s : Slot) (newPrio : Nat) :
    (∀ v, scanLowestPriority e s.tokens newPrio none = some v →
      ∃ l₁ l₂, ∃ tv : Token, s.tokens = l₁ ++ v :: l₂ ∧ e.heapGet v = some tv ∧
        tv.priority < newPrio ∧
        (∀ u ∈ l₁, ∀ tu : Token, e.heapGet u = some tu → tv.priority < tu.priority) ∧
        (∀ u ∈ l₂, ∀ tu : Token, e.heapGet u = some tu → tv.priority ≤ tu.priority)) ∧
    (scanLowestPriority e s.tokens newPrio none = none ↔
      ∀ u ∈ s.tokens, ∀ tu : Token, e.heapGet u = some tu → newPrio ≤ tu.priority) ∧
    (∀ newTid v, scanLowestPriority e s.tokens newPrio none = some v →
      tryBumpLowerPriorityToken e s newTid newPrio =
        (((s.removeToken v).1.addToken newTid).1,
         { e with waitingQueue := e.waitingQueue ++ [v] }, true)) := by
  refine ⟨?_, ⟨fun hn => scan_bound_of_none e s.tokens newPrio hn,
    fun hb => scan_none_of_bound e s.tokens newPrio hb⟩, ?_⟩
  · intro v hv
    rcases scan_spec e s.tokens newPrio none v (by simp) hv with
      ⟨hc, _⟩ | ⟨l₁, l₂, tv, hdec, hvv, hlt, h₁, h₂⟩
    · exact absurd hc (by simp)
    · exact ⟨l₁, l₂, tv, hdec, hvv, hlt, h₁, h₂⟩
  · intro newTid v hv
    simp [tryBumpLowerPriorityToken, hv]

/-- Witness for C5 on a slot with occupant priorities 5, 3, 3 and an
incoming priority of 6: the scan picks the first occupant of priority 3
(heap id 1), and the bump evicts it to the queue tail. -/
theorem C5_witness :
    (∃ l₁ l₂, ∃ tv : Token, sC5.tokens = l₁ ++ 1 :: l₂ ∧ eC5.heapGet 1 = some tv ∧
      tv.priority < 6 ∧
      (∀ u ∈ l₁, ∀ tu : Token, eC5.heapGet u = some tu → tv.priority < tu.priority) ∧
      (∀ u ∈ l₂, ∀ tu : Token, eC5.heapGet u = some tu → tv.priority ≤ tu.priority)) ∧
    tryBumpLowerPriorityToken eC5 sC5 99 6 =
      (((sC5.removeToken 1).1.addToken 99).1,
       { eC5 with waitingQueue := eC5.waitingQueue ++ [1] }, true) :=
  ⟨(C5_theorem eC5 sC5 6).1 1 rfl, (C5_theorem eC5 sC5 6).2.2 99 1 rfl⟩

/-- A slot admits bumping exactly when some occupant resolves strictly
below the incoming priority. -/
theorem bumpable_iff (e : EngineState) (s : Slot) (prio : Nat) :
    canBumpTokenInSlot e s prio = true ↔
    ∃ tid ∈ s.tokens, ∃ tu : Token, e.heapGet tid = some tu ∧ tu.priority < prio := by
  unfold canBumpTokenInSlot
  rw [List.any_eq_true]
  constructor
  · rintro ⟨tid, htid, hb⟩
    rcases hget : e.heapGet tid with _ | tu
    · rw [hget] at hb
      exact absurd hb (by simp)
    · rw [hget] at hb
      exact ⟨tid, htid, tu, hget, by simpa using hb⟩
  · rintro ⟨tid, htid, tu, hget, hlt⟩
    refine ⟨tid, htid, ?_⟩
    rw [hget]
    simpa using hlt

theorem findAlternativeLoop_eq (e : EngineState) (d : Doctor) (h : Int) (prio : Nat) :
    ∀ L : List Int, findAlternativeLoop e d h prio L =
      (L.map (fun off => h + off)).find? (fun c => slotQualifies e d c prio)
  | [] => rfl
  | off :: rest => by
      by_cases q : slotQualifies e d (h + off) prio
      · simp only [findAlternativeLoop, if_pos q, List.map_cons]
        exact (List.find?_cons_of_pos (List.map (fun off => h + off) rest) q).symm
      · simp only [findAlternativeLoop, if_neg q, List.map_cons]
        rw [findAlternativeLoop_eq e d h prio rest]
        exact (List.find?_cons_of_neg (List.map (fun off => h + off) rest) q).symm

/-- C7: with the doctor resolved, findAlternativeSlot equals the first
match over the candidate hours probed in the fixed order -2, -1, +1, +2
from the preferred hour — the search stops at the first qualifying
candidate and returns none when no candidate qualifies — and a candidate
qualifies exactly when its slot exists and has spare capacity or holds an
occupant of strictly lower priority than the requester. -/
theorem C7_theorem (e : EngineState) (did : String) (h : Int) (prio : Nat) (d : Doctor)
    (hd : e.findDoctor did = some d) :
    findAlternativeSlot e did h prio =
      ([h - 2, h - 1, h + 1, h + 2].find? (fun c => slotQualifies e d c prio)) ∧
    ∀ c : Int, slotQualifies e d c prio = true ↔
      ∃ s, d.findSlot c = some s ∧ (s.availableCapacity > 0 ∨
        ∃ tid ∈ s.tokens, ∃ tu : Token, e.heapGet tid = some tu ∧ tu.priority < prio) := by
  constructor
  · simp only [findAlternativeSlot, hd]
    rw [findAlternativeLoop_eq]
    have hm2 : h + (-2 : Int) = h - 2 := by ring
    have hm1 : h + (-1 : Int) = h - 1 := by ring
    simp only [List.map_cons, List.map_nil, hm2, hm1]
  · intro c
    unfold slotQualifies
    rcases hslot : d.findSlot c with _ | s
    · simp
    · simp only [Bool.or_eq_true, decide_eq_true_eq, bumpable_iff, Option.some_inj]
      constructor
      · rintro (hc | hc)
        · exact ⟨s, rfl, Or.inl hc⟩
        · exact ⟨s, rfl, Or.inr hc⟩
      · rintro ⟨s', hss, hc⟩
        subst hss
        exact hc

/-- Witness for C7 on a doctor with slots 9, 10, 11 and a priority 2
request at hour 9: the first qualifying probe is hour 10 (hours 7 and 8
have no slot), and the qualifying condition instantiated at hour 10. -/
theorem C7_witness :
    (findAlternativeSlot e7a "D1" 9 2 =
      ([9 - 2, 9 - 1, 9 + 1, 9 + 2].find? (fun c => slotQualifies e7a d7 c 2))) ∧
    (slotQualifies e7a d7 10 2 = true ↔
      ∃ s, d7.findSlot 10 = some s ∧ (s.availableCapacity > 0 ∨
        ∃ tid ∈ s.tokens, ∃ tu : Token, e7a.heapGet tid = some tu ∧ tu.priority < 2)) :=
  ⟨(C7_theorem e7a "D1" 9 2 d7 rfl).1, (C7_theorem e7a "D1" 9 2 d7 rfl).2 10⟩

/-- C4 counterexample: the claim states that insertEmergencyToken returns
an outcome object for every input and never throws, including a providerId
not present in the table. On the empty engine the call dereferences a
missing doctor: the source raises a TypeError, modelled by `none` — no
outcome object is returned. -/
theorem C4_counterexample : insertEmergencyToken emptyEngine "P1" "D1" 9 = none := rfl

/-- C4 amended: when the providerId is registered and the placement fails —
the target slot does not exist, or it has no spare capacity and every
occupant resolves at priority 10 or more — insertEmergencyToken returns a
structured failure outcome (it does not throw), and the doctor table, the
registry, the waiting queue and every slot are unchanged (only the heap
gains the discarded unregistered Token object). -/
theorem C4_theorem (e : EngineState) (pid did : String) (t : Int) (d : Doctor)
    (hd : e.findDoctor did = some d)
    (hfail : d.findSlot t = none ∨ ∃ s, d.findSlot t = some s ∧
      ¬ s.availableCapacity > 0 ∧
      ∀ tid ∈ s.tokens, ∀ tok : Token, e.heapGet tid = some tok → 10 ≤ tok.priority) :
    ∃ e₁, insertEmergencyToken e pid did t =
      some (e₁, ⟨false, none, "Failed to allocate emergency token"⟩) ∧
      e₁.doctors = e.doctors ∧ e₁.registered = e.registered ∧
      e₁.waitingQueue = e.waitingQueue ∧
      ∀ x, x < e.heap.length → e₁.heapGet x = e.heapGet x := by
  have hget : ({ e with heap := e.heap ++ [⟨pid, did, t, "emergency", 10, TStatus.allocated⟩] } :
      EngineState).heapGet e.heap.length =
      some ⟨pid, did, t, "emergency", 10, TStatus.allocated⟩ :=
    List.get?_concat_length e.heap _
  have hd₀ : ({ e with heap := e.heap ++ [⟨pid, did, t, "emergency", 10, TStatus.allocated⟩] } :
      EngineState).findDoctor did = some d := hd
  have htry : tryAllocateToSlot
      { e with heap := e.heap ++ [⟨pid, did, t, "emergency", 10, TStatus.allocated⟩] }
      e.heap.length t =
      some ({ e with heap := e.heap ++ [⟨pid, did, t, "emergency", 10, TStatus.allocated⟩] },
        false) := by
    rcases hfail with hnone | ⟨s, hs, hav, hbound⟩
    · simp [tryAllocateToSlot, hget, hd₀, hnone]
    · have hscan : scanLowestPriority
          { e with heap := e.heap ++ [⟨pid, did, t, "emergency", 10, TStatus.allocated⟩] }
          s.tokens 10 none = none := by
        apply scan_none_of_bound
        intro u hu tu htu
        by_cases hult : u < e.heap.length
        · have htu' : e.heapGet u = some tu := by
            show e.heap.get? u = some tu
            have h0 : (e.heap ++ [(⟨pid, did, t, "emergency", 10,
                TStatus.allocated⟩ : Token)]).get? u = some tu := htu
            rwa [List.get?_append hult] at h0
          exact hbound u hu tu htu'
        · by_cases hue : u = e.heap.length
          · subst hue
            rw [hget] at htu
            rw [Option.some_inj] at htu
            rw [← htu]
          · have h0 : (e.heap ++ [(⟨pid, did, t, "emergency", 10,
                TStatus.allocated⟩ : Token)]).get? u = none := by
              rw [List.get?_eq_none]
              simp only [List.length_append, List.length_singleton]
              omega
            rw [show ({ e with heap := e.heap ++ [⟨pid, did, t, "emergency", 10,
                TStatus.allocated⟩] } : EngineState).heapGet u =
                (e.heap ++ [(⟨pid, did, t, "emergency", 10,
                  TStatus.allocated⟩ : Token)]).get? u from rfl, h0] at htu
            exact absurd htu (by simp)
      simp only [tryAllocateToSlot, hget, hd₀, hs, if_neg hav,
        tryBumpLowerPriorityToken, hscan]
      rw [setSlot_self hd₀ hs]
  refine ⟨{ e with heap := e.heap ++ [⟨pid, did, t, "emergency", 10, TStatus.allocated⟩] },
    ?_, rfl, rfl, rfl, ?_⟩
  · simp only [insertEmergencyToken]
    rw [htry]
  · intro x hx
    show (e.heap ++ [(⟨pid, did, t, "emergency", 10, TStatus.allocated⟩ : Token)]).get? x =
      e.heap.get? x
    exact List.get?_append hx

/-- Witness for C4: a registered doctor with hours 9..10 and an emergency
request at hour 20, whose slot does not exist. -/
theorem C4_witness :
    ∃ e₁, insertEmergencyToken e4a "P1" "D1" 20 =
      some (e₁, ⟨false, none, "Failed to allocate emergency token"⟩) ∧
      e₁.doctors = e4a.doctors ∧ e₁.registered = e4a.registered ∧
      e₁.waitingQueue = e4a.waitingQueue ∧
      ∀ x, x < e4a.heap.length → e₁.heapGet x = e4a.heapGet x :=
  C4_theorem e4a "P1" "D1" 20 d4 rfl (Or.inl rfl)

/-- C8: every call reported to the caller as a failure leaves the shared
engine state unchanged. An allocateToken with an unknown provider id and a
cancelToken with an unknown token id return the failure with the state
literally unchanged; an insertEmergencyToken that returns a failure leaves
the doctor table (hence every slot occupant sequence), the registry key
set, the waiting queue, and the contents of every live heap id unchanged
(the discarded Token object appended to the heap is referenced by no
container, matching the garbage object of the source). -/
theorem C8_theorem :
    (∀ (e : EngineState) (pid did : String) (t : Int) (src : String),
      e.findDoctor did = none →
      allocateToken e pid did t src = (e, ⟨false, none, "Doctor not found"⟩)) ∧
    (∀ (e : EngineState) (tid : Nat), e.tokensGet tid = none →
      cancelToken e tid = some (e, ⟨false, none, "Token not found"⟩)) ∧
    (∀ (e : EngineState) (pid did : String) (t : Int) (e₁ : EngineState) (r : OpResult),
      insertEmergencyToken e pid did t = some (e₁, r) → r.success = false →
      e₁.doctors = e.doctors ∧ e₁.registered = e.registered ∧
      e₁.waitingQueue = e.waitingQueue ∧
      ∀ x, x < e.heap.length → e₁.heapGet x = e.heapGet x) := by
  refine ⟨?_, ?_, ?_⟩
  · intro e pid did t src h
    simp [allocateToken, h]
  · intro e tid h
    simp [cancelToken, h]
  · intro e pid did t e₁ r heq hfail
    unfold insertEmergencyToken at heq
    simp only [] at heq
    split at heq
    · exact absurd heq (by simp)
    · split at heq
      · exact absurd heq (by simp)
      · rename_i e₃ r₃ hproc
        rw [Option.some_inj, Prod.mk.injEq] at heq
        rw [← heq.2] at hfail
        exact absurd hfail (by simp)
    · rename_i e₂ htry
      rw [Option.some_inj, Prod.mk.injEq] at heq
      obtain ⟨h1, _⟩ := heq
      subst h1
      rcases tryAlloc_cases htry with ⟨_, rfl⟩ | ⟨hcon, _⟩
      · refine ⟨rfl, rfl, rfl, ?_⟩
        intro x hx
        show (e.heap ++ [(⟨pid, did, t, "emergency", 10, TStatus.allocated⟩ : Token)]).get? x =
          e.heap.get? x
        exact List.get?_append hx
      · exact absurd hcon (by simp)

/-- Witness for C8: the three failure shapes at concrete states — unknown
doctor on the empty engine, unknown token id on the empty engine, and the
failed emergency insertion of the C4 scenario. -/
theorem C8_witness :
    allocateToken emptyEngine "P" "D" 9 "walkin" =
      (emptyEngine, ⟨false, none, "Doctor not found"⟩) ∧
    cancelToken emptyEngine 0 = some (emptyEngine, ⟨false, none, "Token not found"⟩) ∧
    e4post.doctors = e4a.doctors :=
  ⟨C8_theorem.1 emptyEngine "P" "D" 9 "walkin" rfl,
   C8_theorem.2.1 emptyEngine 0 rfl,
   (C8_theorem.2.2 e4a "P1" "D1" 20 e4post ⟨false, none, "Failed to allocate emergency token"⟩
      rfl rfl).1⟩

/-- C10: a token that allocateToken sends to the waiting queue without ever
having been placed is not entered into the registry: in every reachable
state, when allocateToken reports the queued outcome (failure flag with a
token id), the token sits in the waiting queue of the new state, its id is
not registered, and a subsequent cancelToken on that id returns the Token
not found failure leaving the state unchanged. -/
theorem C10_theorem (e : EngineState) (pid did : String) (t : Int) (src : String)
    (e' : EngineState) (r : OpResult) (tid : Nat)
    (hre : Reachable e)
    (heq : allocateToken e pid did t src = (e', r))
    (hfail : r.success = false) (hid : r.tokenId = some tid) :
    tid ∈ e'.waitingQueue ∧ tid ∉ e'.registered ∧
    cancelToken e' tid = some (e', ⟨false, none, "Token not found"⟩) := by
  have hInv := inv_of_reachable hre
  unfold allocateToken at heq
  simp only [] at heq
  split at heq
  · rw [Prod.mk.injEq] at heq
    rw [← heq.2] at hid
    exact absurd hid (by simp)
  split at heq
  · rw [Prod.mk.injEq] at heq
    rw [← heq.2] at hid
    exact absurd hid (by simp)
  · rw [Prod.mk.injEq] at heq
    rw [← heq.2] at hfail
    exact absurd hfail (by simp)
  rename_i e₁ htry
  have hkey : ∀ e₂ : EngineState, e₂.registered = e.registered →
      e₂.waitingQueue = e.waitingQueue →
      { e₂ with waitingQueue := e₂.waitingQueue ++ [e.heap.length] } = e' →
      r.tokenId = some e.heap.length →
      tid ∈ e'.waitingQueue ∧ tid ∉ e'.registered ∧
      cancelToken e' tid = some (e', ⟨false, none, "Token not found"⟩) := by
    intro e₂ hreg hq h2 hid₂
    have htideq : tid = e.heap.length := by
      rw [hid₂] at hid
      exact (Option.some_inj.mp hid).symm
    subst htideq
    have hnr : e.heap.length ∉ e'.registered := by
      rw [← h2]
      show e.heap.length ∉ e₂.registered
      rw [hreg]
      intro hc
      exact absurd (hInv.reg_lt e.heap.length hc) (lt_irrefl e.heap.length)
    refine ⟨?_, hnr, ?_⟩
    · rw [← h2]
      simp
    · have htg : e'.tokensGet e.heap.length = none := by
        unfold EngineState.tokensGet
        rw [if_neg hnr]
      simp [cancelToken, htg]
  split at heq
  · rename_i alt halt
    split at heq
    · rw [Prod.mk.injEq] at heq
      rw [← heq.2] at hid
      exact absurd hid (by simp)
    · rw [Prod.mk.injEq] at heq
      rw [← heq.2] at hfail
      exact absurd hfail (by simp)
    · rename_i e₃ htry₂
      rw [Prod.mk.injEq] at heq
      rcases tryAlloc_cases htry₂ with ⟨_, rfl⟩ | ⟨hcon, _⟩
      · rcases tryAlloc_cases htry with ⟨_, rfl⟩ | ⟨hcon, _⟩
        · refine hkey _ ?_ ?_ heq.1 ?_
          · simp
          · simp
          · rw [← heq.2]
        · exact absurd hcon (by simp)
      · exact absurd hcon (by simp)
  · rw [Prod.mk.injEq] at heq
    rcases tryAlloc_cases htry with ⟨_, rfl⟩ | ⟨hcon, _⟩
    · refine hkey _ ?_ ?_ heq.1 ?_
      · simp
      · simp
      · rw [← heq.2]
    · exact absurd hcon (by simp)

/-- Witness for C10: a doctor registered with an empty working interval has
no slots, so a walkin request is queued; its id 0 is unregistered and
cancelling it reports Token not found. -/
theorem C10_witness :
    (0 : Nat) ∈ e10post.waitingQueue ∧ (0 : Nat) ∉ e10post.registered ∧
    cancelToken e10post 0 = some (e10post, ⟨false, none, "Token not found"⟩) :=
  C10_theorem e10a "P" "D0" 9 "walkin" e10post
    ⟨false, some 0, "No slots available, added to waiting queue"⟩ 0
    (Reachable.addDoctor "D0" "N" "S" 9 9 Reachable.init) rfl rfl rfl

/-- Counterexample to C2: in the scenario where walkin token 0 has been
preempted into the waiting queue, cancelToken on 0 reports success yet
leaves 0 in the waiting queue with status cancelled, and the later
cancellation of token 1 places the cancelled token 0 into a slot. -/
theorem C2_counterexample :
    (cancelToken e2d 0).map (fun p => (p.2).success) = some true ∧
    C2mid.waitingQueue = [0] ∧
    (C2mid.heapGet 0).map Token.status = some TStatus.cancelled ∧
    inSomeSlot C2fin 0 = true ∧
    (C2fin.heapGet 0).map Token.status = some TStatus.cancelled :=
  ⟨rfl, rfl, rfl, rfl, rfl⟩

/-- C2 (amended): cancelToken on a registered token that is not in the
waiting queue, whose id occurs in at most one occupant list and only in the
slot recorded by its own doctorId and slotTime fields, reports success, and
afterwards the token is held in no occupant sequence and not in the waiting
queue, and its heap record carries status cancelled. The amendment
restricts the claim to tokens that are not waiting: the source never
removes a cancelled token from the waiting queue, and a cancelled token
left there is placed into a slot by a later replay pass, so the original
unconditional claim fails on preempted tokens. -/
theorem C2_theorem (e : EngineState) (tid : Nat) (td : Token)
    (e' : EngineState) (r : OpResult)
    (hreg : e.tokensGet tid = some td)
    (hq : tid ∉ e.waitingQueue)
    (hloc : ∀ d ∈ e.doctors, ∀ s ∈ d.slots, tid ∈ s.tokens →
      d.id = td.doctorId ∧ s.startTime = td.slotTime)
    (hcount : ∀ d ∈ e.doctors, ∀ s ∈ d.slots, s.tokens.count tid ≤ 1)
    (hdocs : (e.doctors.map Doctor.id).Nodup)
    (hkeys : ∀ d ∈ e.doctors, (d.slots.map Slot.startTime).Nodup)
    (hc : cancelToken e tid = some (e', r)) :
    r.success = true ∧ tid ∉ e'.waitingQueue ∧
    (∀ d ∈ e'.doctors, ∀ s ∈ d.slots, tid ∉ s.tokens) ∧
    (e'.heapGet tid).map Token.status = some TStatus.cancelled := by
  have hget : e.heapGet tid = some td := by
    unfold EngineState.tokensGet at hreg
    by_cases hm : tid ∈ e.registered
    · rwa [if_pos hm] at hreg
    · rw [if_neg hm] at hreg
      exact absurd hreg (by simp)
  unfold cancelToken at hc
  rw [hreg] at hc
  simp only [] at hc
  split at hc
  · exact absurd hc (by simp)
  rename_i doctor hdoc
  have hdocmem : doctor ∈ e.doctors := by
    unfold EngineState.findDoctor at hdoc
    exact List.mem_of_find?_eq_some hdoc
  have hdoc' := hdoc
  unfold EngineState.findDoctor at hdoc'
  obtain ⟨D₁, D₂, hDdec, hDfail, hDp⟩ := find?_decomp hdoc'
  have hDp' : (doctor.id == td.doctorId) = true := hDp
  have hdocid : doctor.id = td.doctorId := eq_of_beq hDp'
  cases hslot : doctor.findSlot td.slotTime with
  | none =>
    have hnp : tid ∉ placedIds e := by
      intro hmem
      obtain ⟨d', hd', s', hs', hts⟩ := mem_placedIds.mp hmem
      obtain ⟨hid', hst'⟩ := hloc d' hd' s' hs' hts
      have hdd : d' = doctor :=
        List.inj_on_of_nodup_map hdocs hd' hdocmem (by rw [hid']; exact hdocid.symm)
      rw [hdd] at hs'
      have hsn := hslot
      unfold Doctor.findSlot at hsn
      refine List.find?_eq_none.mp hsn s' hs' ?_
      show (Slot.startTime s' == td.slotTime) = true
      rw [hst']
      exact beq_self_eq_true td.slotTime
    rw [hslot] at hc
    simp only [] at hc
    split at hc
    · exact absurd hc (by simp)
    rename_i e₃ x hpw
    rw [Option.some_inj, Prod.mk.injEq] at hc
    obtain ⟨he3, hr⟩ := hc
    subst he3
    subst hr
    unfold processWaitingQueue at hpw
    obtain ⟨hp', hw', hg'⟩ := replayLoop_avoid _ _ _ _ _ _ _ tid (by exact hnp)
      (by exact hq) (List.not_mem_nil tid) hpw
    refine ⟨rfl, hw', ?_, ?_⟩
    · intro d hd s hs hmem
      exact hp' (mem_placedIds.mpr ⟨d, hd, s, hs, hmem⟩)
    · rw [hg', setTok_heapGet, if_pos rfl, hget]
      rfl
  | some s₀ =>
    have hslot' := hslot
    unfold Doctor.findSlot at hslot'
    obtain ⟨S₁, S₂, hSdec, hSfail, hSp⟩ := find?_decomp hslot'
    have hs0mem : s₀ ∈ doctor.slots := by
      rw [hSdec]
      exact List.mem_append_right _ (List.mem_cons_self _ _)
    have hSp' : (s₀.startTime == td.slotTime) = true := hSp
    have hs0time : s₀.startTime = td.slotTime := eq_of_beq hSp'
    have hupd : (e.updateDoctor td.doctorId
        (fun d => d.updateSlot td.slotTime (fun s => (s.removeToken tid).1))).doctors =
        D₁ ++ { doctor with slots := S₁ ++ (s₀.removeToken tid).1 :: S₂ } :: D₂ := by
      show updateFirst (fun d => d.id == td.doctorId)
        (fun d => d.updateSlot td.slotTime (fun s => (s.removeToken tid).1)) e.doctors = _
      rw [hDdec, updateFirst_append _ _ D₁ D₂ doctor hDfail hDp]
      have hds : doctor.updateSlot td.slotTime (fun s => (s.removeToken tid).1) =
          { doctor with slots := S₁ ++ (s₀.removeToken tid).1 :: S₂ } := by
        unfold Doctor.updateSlot
        rw [hSdec, updateFirst_append _ _ S₁ S₂ s₀ hSfail hSp]
      rw [hds]
    have hnp : tid ∉ placedIds (e.updateDoctor td.doctorId
        (fun d => d.updateSlot td.slotTime (fun s => (s.removeToken tid).1))) := by
      intro hmem
      obtain ⟨d', hd', s', hs', hts⟩ := mem_placedIds.mp hmem
      rw [hupd] at hd'
      rcases List.mem_append.mp hd' with hd1 | hd1
      · have hd'mem : d' ∈ e.doctors := by
          rw [hDdec]
          exact List.mem_append_left _ hd1
        obtain ⟨hid', _⟩ := hloc d' hd'mem s' hs' hts
        have hDf : (Doctor.id d' == td.doctorId) = false := hDfail d' hd1
        exact ne_of_beq_false hDf hid'
      rcases List.mem_cons.mp hd1 with hd2 | hd2
      · rw [hd2] at hs'
        simp only [] at hs'
        rcases List.mem_append.mp hs' with hs1 | hs1
        · have hsmem : s' ∈ doctor.slots := by
            rw [hSdec]
            exact List.mem_append_left _ hs1
          obtain ⟨_, hst'⟩ := hloc doctor hdocmem s' hsmem hts
          have hSf : (Slot.startTime s' == td.slotTime) = false := hSfail s' hs1
          exact ne_of_beq_false hSf hst'
        rcases List.mem_cons.mp hs1 with hs2 | hs2
        · rw [hs2] at hts
          by_cases htm : tid ∈ s₀.tokens
          · have hnm := not_mem_removeFirst (hcount doctor hdocmem s₀ hs0mem)
            rw [show (s₀.removeToken tid).1.tokens = removeFirst tid s₀.tokens from by
              unfold Slot.removeToken
              rw [if_pos htm]] at hts
            exact hnm hts
          · rw [show (s₀.removeToken tid).1 = s₀ from by
              unfold Slot.removeToken
              rw [if_neg htm]] at hts
            exact htm hts
        · have hsmem : s' ∈ doctor.slots := by
            rw [hSdec]
            exact List.mem_append_right _ (List.mem_cons_of_mem _ hs2)
          obtain ⟨_, hst'⟩ := hloc doctor hdocmem s' hsmem hts
          have hnd := hkeys doctor hdocmem
          rw [hSdec, List.map_append, List.map_cons] at hnd
          have h2 : Slot.startTime s₀ ∉ S₂.map Slot.startTime :=
            (List.nodup_cons.mp (List.nodup_append.mp hnd).2.1).1
          exact h2 (List.mem_map.mpr ⟨s', hs2, by rw [hst']; exact hs0time.symm⟩)
      · have hd'mem : d' ∈ e.doctors := by
          rw [hDdec]
          exact List.mem_append_right _ (List.mem_cons_of_mem _ hd2)
        obtain ⟨hid', _⟩ := hloc d' hd'mem s' hs' hts
        have hnd : Doctor.id doctor ∉ D₂.map Doctor.id := by
          rw [hDdec, List.map_append, List.map_cons] at hdocs
          exact (List.nodup_cons.mp (List.nodup_append.mp hdocs).2.1).1
        exact hnd (List.mem_map.mpr ⟨d', hd2, by rw [hid']; exact hdocid.symm⟩)
    rw [hslot] at hc
    simp only [] at hc
    split at hc
    · exact absurd hc (by simp)
    rename_i e₃ x hpw
    rw [Option.some_inj, Prod.mk.injEq] at hc
    obtain ⟨he3, hr⟩ := hc
    subst he3
    subst hr
    unfold processWaitingQueue at hpw
    obtain ⟨hp', hw', hg'⟩ := replayLoop_avoid _ _ _ _ _ _ _ tid (by exact hnp)
      (by exact hq) (List.not_mem_nil tid) hpw
    have hge1 : (e.updateDoctor td.doctorId
        (fun d => d.updateSlot td.slotTime (fun s => (s.removeToken tid).1))).heapGet tid =
        some td := hget
    refine ⟨rfl, hw', ?_, ?_⟩
    · intro d hd s hs hmem
      exact hp' (mem_placedIds.mpr ⟨d, hd, s, hs, hmem⟩)
    · rw [hg', setTok_heapGet, if_pos rfl, hge1]
      rfl

/-- Witness for C2: cancelling the single placed walkin token of a one
doctor engine removes it from every slot and marks it cancelled. -/
theorem C2_witness :
    (0 : Nat) ∉ (cancelState eW2 0).waitingQueue ∧
    (∀ d ∈ (cancelState eW2 0).doctors, ∀ s ∈ d.slots, (0 : Nat) ∉ s.tokens) ∧
    ((cancelState eW2 0).heapGet 0).map Token.status = some TStatus.cancelled :=
  let h := C2_theorem eW2 0 ⟨"P", "D1", 9, "walkin", 2, TStatus.allocated⟩
    (cancelState eW2 0) ⟨true, some 0, "Token cancelled successfully"⟩
    rfl (by decide) (by decide) (by decide) (by decide) (by decide) rfl
  ⟨h.2.1, h.2.2.1, h.2.2.2⟩

end OPD
